import Mathlib

/-!
Shallow embedding of the graph-core crate of the graphwiki repository
(src/graph-core/src/{models,graph,events,query,parser,watcher}.rs) and
proofs about its specified behaviour.

Modelling conventions:
* Rust `String` is Lean `String`; `PathBuf` is modelled as its string form.
* `SystemTime` is modelled as `Nat` (an opaque instant; only equality of
  timestamps is ever observed by the properties proved here).
* `HashMap<String, V>` is modelled as an association list
  `List (String × V)` with first-match lookup, in-place replacing insert
  and key-filtering removal, matching the observable HashMap contract.
* `HashSet<String>` (used for link-set diffing) is modelled as a
  duplicate-free `List String` built by insert-if-absent.
* petgraph's `DiGraph<PageNode, WikiLink>` is modelled as a node list
  (positions are `NodeIndex` values) plus an edge list; `remove_node`
  uses petgraph's documented swap-remove semantics (the last node moves
  into the removed slot and edges incident to it are renumbered).
-/

namespace GraphWiki

/-- models.rs `PageNode`: name, relative file path, frontmatter metadata
(key → list of values) and last-modified time. -/
structure PageNode where
  name : String
  file_path : String
  metadata : List (String × List String)
  last_modified : Nat
deriving DecidableEq, Repr

instance : Inhabited PageNode := ⟨⟨"", "", [], 0⟩⟩

/-- models.rs `WikiLink`: edge payload, an optional display text. -/
structure WikiLink where
  display_text : Option String
deriving DecidableEq, Repr

/-- models.rs `ParsedLink`: a link extracted from markdown. -/
structure ParsedLink where
  target : String
  display_text : Option String
deriving DecidableEq, Repr

/-- events.rs `GraphEvent`: the closed sum of change notifications. -/
inductive GraphEvent where
  | PageCreated (name : String)
  | PageUpdated (name : String)
  | PageDeleted (name : String)
  | LinkCreated (fromName toName : String)
  | LinkRemoved (fromName toName : String)
deriving DecidableEq, Repr

/-- One edge of the petgraph `DiGraph`: source node position, target node
position and the `WikiLink` weight. -/
structure Edge where
  src : Nat
  dst : Nat
  link : WikiLink
deriving DecidableEq, Repr

/-- graph.rs `WikiGraph`: the petgraph graph (node and edge arenas) plus
the `node_index : HashMap<String, NodeIndex>` lookup table. -/
structure WikiGraph where
  nodes : List PageNode
  edges : List Edge
  node_index : List (String × Nat)
deriving DecidableEq, Repr

/-- `HashMap::get` (first matching key). -/
def assocFind (m : List (String × Nat)) (k : String) : Option Nat :=
  (m.find? (fun p => p.1 == k)).map (fun p => p.2)

/-- `HashMap::insert`: replace the value of an existing key in place,
otherwise append a fresh entry. -/
def assocInsert (m : List (String × Nat)) (k : String) (v : Nat) :
    List (String × Nat) :=
  if (m.find? (fun p => p.1 == k)).isSome then
    m.map (fun p => if p.1 == k then (k, v) else p)
  else
    m ++ [(k, v)]

/-- `HashMap::remove` (the removed value is recovered by `assocFind`
before filtering, where needed). -/
def assocRemove (m : List (String × Nat)) (k : String) : List (String × Nat) :=
  m.filter (fun p => p.1 != k)

/-- `HashMap<String, Vec<String>>::get` for page metadata. -/
def metaGet (m : List (String × List String)) (k : String) :
    Option (List String) :=
  (m.find? (fun p => p.1 == k)).map (fun p => p.2)

namespace WikiGraph

/-- `WikiGraph::new`. -/
def new : WikiGraph := ⟨[], [], []⟩

/-- Position of a page name in the node arena (`node_index.get`). -/
def getIdx (g : WikiGraph) (name : String) : Option Nat :=
  assocFind g.node_index name

/-- Name of the node stored at a position (`self.graph[idx].name`;
positions are always valid in the well-formed states the code keeps). -/
def nameAt (g : WikiGraph) (idx : Nat) : String :=
  (g.nodes.getD idx default).name

/-- graph.rs `add_page`: overwrite the node in place when the name is
already indexed, otherwise push a new node and index it. Returns the
node position like the Rust method returns the `NodeIndex`. -/
def add_page (g : WikiGraph) (page : PageNode) : WikiGraph × Nat :=
  match getIdx g page.name with
  | some idx => ({ g with nodes := g.nodes.set idx page }, idx)
  | none =>
      let idx := g.nodes.length
      (⟨g.nodes ++ [page], g.edges, assocInsert g.node_index page.name idx⟩,
       idx)

/-- graph.rs `get_page`. -/
def get_page (g : WikiGraph) (name : String) : Option PageNode :=
  (getIdx g name).bind (fun idx => g.nodes.get? idx)

/-- graph.rs `page_exists`. -/
def page_exists (g : WikiGraph) (name : String) : Bool :=
  (assocFind g.node_index name).isSome

/-- graph.rs `page_count`. -/
def page_count (g : WikiGraph) : Nat := g.nodes.length

/-- graph.rs `link_count`. -/
def link_count (g : WikiGraph) : Nat := g.edges.length

/-- graph.rs `list_pages` (`node_weights` iterates the node arena). -/
def list_pages (g : WikiGraph) : List PageNode := g.nodes

/-- petgraph `contains_edge`. -/
def contains_edge (g : WikiGraph) (a b : Nat) : Bool :=
  g.edges.any (fun e => e.src == a && e.dst == b)

/-- graph.rs `add_link`: no-op returning `false` when either endpoint is
missing; skips insertion when the ordered edge already exists. -/
def add_link (g : WikiGraph) (fromName toName : String) (link : WikiLink) :
    WikiGraph × Bool :=
  match getIdx g fromName, getIdx g toName with
  | some f, some t =>
      (if contains_edge g f t then g
       else { g with edges := g.edges ++ [⟨f, t, link⟩] }, true)
  | _, _ => (g, false)

/-- graph.rs `get_backlinks`: names of sources of incoming edges. -/
def get_backlinks (g : WikiGraph) (name : String) : List String :=
  match getIdx g name with
  | none => []
  | some idx => (g.edges.filter (fun e => e.dst == idx)).map
      (fun e => nameAt g e.src)

/-- graph.rs `get_outlinks`: names of targets of outgoing edges. -/
def get_outlinks (g : WikiGraph) (name : String) : List String :=
  match getIdx g name with
  | none => []
  | some idx => (g.edges.filter (fun e => e.src == idx)).map
      (fun e => nameAt g e.dst)

/-- graph.rs `clear`. -/
def clear (_g : WikiGraph) : WikiGraph := ⟨[], [], []⟩

/-- Endpoint renumbering done by petgraph's swap-remove: the node that
lived at the last position now lives at `idx`. -/
def renumber (last idx n : Nat) : Nat := if n == last then idx else n

/-- petgraph `Graph::remove_node` with its documented swap-remove
semantics: all edges incident to `idx` are removed, the last node is
moved into position `idx`, and surviving edges that referenced the last
position are renumbered to `idx`. -/
def remove_node (g : WikiGraph) (idx : Nat) : WikiGraph :=
  if idx < g.nodes.length then
    let last := g.nodes.length - 1
    let kept := g.edges.filter (fun e => e.src != idx && e.dst != idx)
    let edges' := kept.map
      (fun e => ⟨renumber last idx e.src, renumber last idx e.dst, e.link⟩)
    let nodes' := (g.nodes.set idx (g.nodes.getD last default)).take last
    { g with nodes := nodes', edges := edges' }
  else g

/-- graph.rs `remove_page`: take the name out of `node_index`, re-index
the node that swap-remove will relocate (when the removed slot is not
the last one), then remove the node. -/
def remove_page (g : WikiGraph) (name : String) : WikiGraph × Bool :=
  match assocFind g.node_index name with
  | none => (g, false)
  | some idx =>
      let m1 := assocRemove g.node_index name
      let last := g.nodes.length - 1
      let m2 :=
        if idx ≠ last then
          match g.nodes.get? last with
          | some swapped => assocInsert m1 swapped.name idx
          | none => m1
        else m1
      (remove_node { g with node_index := m2 } idx, true)

/-- graph.rs `remove_outgoing_edges`: the Rust code collects the ids of
all edges sourced at the page and removes each one; modelled as removing
exactly the outgoing edges of the page's node. -/
def remove_outgoing_edges (g : WikiGraph) (name : String) : WikiGraph :=
  match assocFind g.node_index name with
  | none => g
  | some idx => { g with edges := g.edges.filter (fun e => e.src != idx) }

/-- `HashSet<String>::insert` modelled on a duplicate-free list that
remembers first-insertion order. -/
def setInsert (s : List String) (x : String) : List String :=
  if s.contains x then s else s ++ [x]

/-- `PageNode::new` as used for stub targets in `update_page` and
`build_from_directory`: empty metadata, path `"{target}.md"`; the
`SystemTime::now()` timestamp is modelled as instant 0 (no property
proved here observes a stub's timestamp). -/
def stubPage (target : String) : PageNode :=
  ⟨target, target ++ ".md", [], 0⟩

/-- One iteration of `update_page`'s `for link in &links` loop:
materialize a stub target if missing, add the edge, record the target in
the `new_outlinks` set. -/
def updateLinkStep (name : String) (st : WikiGraph × List String)
    (link : ParsedLink) : WikiGraph × List String :=
  let g := st.1
  let g := if page_exists g link.target then g
           else (add_page g (stubPage link.target)).1
  let g := (add_link g name link.target ⟨link.display_text⟩).1
  (g, setInsert st.2 link.target)

/-- graph.rs `update_page`: capture the old outgoing target set, upsert
the page, drop all outgoing edges, insert the new links (materializing
stubs), then emit one `LinkRemoved` per target in old∖new followed by
one `LinkCreated` per target in new∖old. -/
def update_page (g : WikiGraph) (name : String) (file_path : String)
    (metadata : List (String × List String)) (links : List ParsedLink)
    (last_modified : Nat) : WikiGraph × List GraphEvent :=
  let old_outlinks := (get_outlinks g name).foldl setInsert []
  let g1 := (add_page g ⟨name, file_path, metadata, last_modified⟩).1
  let g2 := remove_outgoing_edges g1 name
  let st := links.foldl (updateLinkStep name) (g2, [])
  let new_outlinks := st.2
  let removed := (old_outlinks.filter
      (fun t => !new_outlinks.contains t)).map
      (fun t => GraphEvent.LinkRemoved name t)
  let created := (new_outlinks.filter
      (fun t => !old_outlinks.contains t)).map
      (fun t => GraphEvent.LinkCreated name t)
  (st.1, removed ++ created)

end WikiGraph

/-! ## Query / filter engine (query.rs)

The `regex` crate is an external collaborator: `Regex::new` either
compiles the pattern into a matcher or fails. It is modelled by a
`compile : String → Option (String → Bool)` parameter, where `none` is a
compilation error (`Err(_)` in Rust). -/

/-- query.rs `Filter`: the closed predicate set. -/
inductive Filter where
  | Equals (key value : String)
  | HasKey (key : String)
  | Contains (key substring : String)
  | Matches (key pattern : String)
  | LinksTo (page : String)
  | LinkedFrom (page : String)
deriving DecidableEq, Repr

/-- Rust `str::contains` (substring containment over characters). -/
def strContains (s sub : String) : Bool :=
  (List.range (s.length + 1)).any
    (fun i => ((s.drop i).take sub.length) == sub)

/-- query.rs `Filter::matches_page`. -/
def matchesPage (compile : String → Option (String → Bool))
    (g : WikiGraph) (page : PageNode) : Filter → Bool
  | .Equals key value =>
      ((metaGet page.metadata key).map
        (fun values => values.contains value)).getD false
  | .HasKey key => (metaGet page.metadata key).isSome
  | .Contains key substring =>
      ((metaGet page.metadata key).map
        (fun values => values.any (fun v => strContains v substring))).getD
        false
  | .Matches key pattern =>
      match compile pattern with
      | some re =>
          ((metaGet page.metadata key).map
            (fun values => values.any (fun v => re v))).getD false
      | none => false
  | .LinksTo target => (g.get_outlinks page.name).contains target
  | .LinkedFrom source => (g.get_backlinks page.name).contains source

/-- query.rs `matches_all_filters` (AND over the filter list). -/
def matchesAllFilters (compile : String → Option (String → Bool))
    (page : PageNode) (filters : List Filter) (g : WikiGraph) : Bool :=
  filters.all (fun f => matchesPage compile g page f)

/-- graph.rs `query`: pages of the node arena matching every filter. -/
def WikiGraph.query (compile : String → Option (String → Bool))
    (g : WikiGraph) (filters : List Filter) : List PageNode :=
  g.nodes.filter (fun page => matchesAllFilters compile page filters g)

/-! ## Event queue (events.rs)

`EventQueue` wraps `Arc<Mutex<VecDeque<GraphEvent>>>`; sequential
behaviour of its operations is modelled as state transitions on the
queue's buffer, each returning the events handed back to the caller. -/

/-- One call into the `EventQueue` API. -/
inductive QueueOp where
  | push (e : GraphEvent)
  | pushAll (es : List GraphEvent)
  | drainAll
deriving DecidableEq, Repr

/-- events.rs semantics of one queue call: `push`/`push_all` append in
call order and return nothing; `drain_all` returns the whole FIFO buffer
and empties it. -/
def applyQueueOp (q : List GraphEvent) (op : QueueOp) :
    List GraphEvent × List GraphEvent :=
  match op with
  | .push e => (q ++ [e], [])
  | .pushAll es => (q ++ es, [])
  | .drainAll => ([], q)

/-- Run a sequence of queue calls, returning the final buffer and the
list of per-call outputs. -/
def runQueueOps (q : List GraphEvent) : List QueueOp →
    List GraphEvent × List (List GraphEvent)
  | [] => (q, [])
  | op :: rest =>
      let step := applyQueueOp q op
      let next := runQueueOps step.1 rest
      (next.1, step.2 :: next.2)

/-- The events a queue call pushes. -/
def pushedOf : QueueOp → List GraphEvent
  | .push e => [e]
  | .pushAll es => es
  | .drainAll => []

/-! ## Filesystem watcher (watcher.rs) -/

/-- What `FileWatcher::start` hands back to its caller, and whether the
spawned background thread reaches its event loop. -/
structure WatcherStart where
  returnsErr : Bool
  threadReachesLoop : Bool
deriving DecidableEq, Repr

/-- watcher.rs `FileWatcher::start`, error-propagation structure: the
outcomes of the two fallible steps performed inside the spawned thread
(`new_debouncer` creation and `watcher().watch(..)` registration) are
parameters. The function body returns `Ok(WatcherHandle { .. })` on
every path; a failure of either step is only logged inside the thread,
which then returns, so the thread reaches its processing loop exactly
when both steps succeed. -/
def fileWatcherStart (debouncerCreateOk watchRegisterOk : Bool) :
    WatcherStart :=
  { returnsErr := false
    threadReachesLoop := debouncerCreateOk && watchRegisterOk }

/-- watcher.rs `FileWatcher::handle_file_deleted` (sequential model; the
poisoned-lock skip path is a concurrency fault outside this model): if
the page is absent, no-op; otherwise capture the outgoing links, remove
the page, and emit `PageDeleted` plus one `LinkRemoved` per captured
outgoing link. Backlinks are captured but deliberately unused. -/
def handleFileDeleted (g : WikiGraph) (page_name : String) :
    WikiGraph × List GraphEvent :=
  if !g.page_exists page_name then (g, [])
  else
    let outlinks := g.get_outlinks page_name
    let g' := (g.remove_page page_name).1
    (g', GraphEvent.PageDeleted page_name ::
      outlinks.map (fun target => GraphEvent.LinkRemoved page_name target))

/-! ## Directory build (graph.rs `build_from_directory` / `scan_directory`)

Filesystem access is external. A directory tree is modelled with
enumeration outcomes explicit; reading + parsing an eligible `.md` file
is modelled by the parsed data carried at the leaf (an unreadable file,
skipped with a warning by the code, carries no data). -/

structure ParsedPageData where
  metadata : List (String × List String)
  links : List ParsedLink
  last_modified : Nat
deriving DecidableEq, Repr

mutual

/-- A path handed to `scan_directory`: either `is_dir()` is false
(nonexistent path or plain file — the function returns `Ok(())` at
once), or `read_dir` fails (the `?` propagates the error), or the
directory enumerates a list of entries. -/
inductive DirTree where
  | notDir
  | dirErr (msg : String)
  | dir (entries : List DirEntry)

/-- One `read_dir` entry: a subdirectory (recursed into), an eligible
`.md` file that was read and parsed, an eligible `.md` file whose read
failed (skipped with a warning), or a file with another extension. -/
inductive DirEntry where
  | subdir (t : DirTree)
  | mdFile (name relpath : String) (data : ParsedPageData)
  | unreadableMd
  | otherFile

end

mutual

/-- graph.rs `scan_directory` over the abstract tree: collects
`(name, relative path, parsed data)` per readable `.md` file in
encounter order; a failing `read_dir` aborts with the error. -/
def scanTree : DirTree → Except String (List (String × String × ParsedPageData))
  | .notDir => .ok []
  | .dirErr msg => .error msg
  | .dir entries => scanEntries entries

def scanEntries : List DirEntry →
    Except String (List (String × String × ParsedPageData))
  | [] => .ok []
  | e :: rest => do
      let xs ← scanEntry e
      let ys ← scanEntries rest
      .ok (xs ++ ys)

def scanEntry : DirEntry → Except String (List (String × String × ParsedPageData))
  | .subdir t => scanTree t
  | .mdFile name relpath data => .ok [(name, relpath, data)]
  | .unreadableMd => .ok []
  | .otherFile => .ok []

end

/-- First pass of `build_from_directory`: add every scanned page. -/
def addPagesPass (g : WikiGraph)
    (pages : List (String × String × ParsedPageData)) : WikiGraph :=
  pages.foldl
    (fun g p =>
      (g.add_page ⟨p.1, p.2.1, p.2.2.metadata, p.2.2.last_modified⟩).1) g

/-- Second pass of `build_from_directory`: add every link, materializing
stub targets when missing. -/
def addLinksPass (g : WikiGraph)
    (pages : List (String × String × ParsedPageData)) : WikiGraph :=
  pages.foldl
    (fun g p =>
      p.2.2.links.foldl
        (fun g link =>
          let g := if g.page_exists link.target then g
                   else (g.add_page (WikiGraph.stubPage link.target)).1
          (g.add_link p.1 link.target ⟨link.display_text⟩).1)
        g) g

/-- graph.rs `build_from_directory`: clear the graph first, then scan
(an enumeration error leaves the graph cleared and is returned), then
run the two passes. Returns the new graph state plus the `io::Result`. -/
def build_from_directory (g : WikiGraph) (root : DirTree) :
    WikiGraph × Except String Unit :=
  let g0 := g.clear
  match scanTree root with
  | .error e => (g0, .error e)
  | .ok pages => (addLinksPass (addPagesPass g0 pages) pages, .ok ())

/-! ## Wiki-link extraction (parser.rs `extract_wiki_links`)

The Rust code scans the byte array for `[[`, finds the first following
`]]`, splits the bracketed content at the first `|`, trims target and
display text, keeps the link when the trimmed target is nonempty, and
finally de-duplicates by target keeping each first occurrence. The
bracket and pipe characters are ASCII, so byte scanning over valid
UTF-8 coincides with the character-level scan modelled here. Rust's
Unicode `trim` is modelled by Lean's `Char.isWhitespace`. -/

/-- Trim leading and trailing whitespace from a character list
(`str::trim`). -/
def trimChars (l : List Char) : List Char :=
  ((l.dropWhile Char.isWhitespace).reverse.dropWhile Char.isWhitespace).reverse

/-- Find the first `]]` in the list: returns the content before it and
the remainder after it (`while end + 1 < len { .. }` in the source). -/
def findClose : List Char → Option (List Char × List Char)
  | [] => none
  | c :: rest =>
      match rest with
      | [] => none
      | d :: rest2 =>
          if c = ']' ∧ d = ']' then some ([], rest2)
          else (findClose rest).map (fun p => (c :: p.1, p.2))

/-- Split at the first `|` (`link_content.find('|')`). -/
def splitPipe : List Char → Option (List Char × List Char)
  | [] => none
  | c :: rest =>
      if c = '|' then some ([], rest)
      else (splitPipe rest).map (fun p => (c :: p.1, p.2))

/-- Build the links (zero or one) from one bracketed content: split at
the first pipe, trim both parts, drop the link when the trimmed target
is empty. -/
def linkOfContent (inner : List Char) : List ParsedLink :=
  match splitPipe inner with
  | some p =>
      let target := trimChars p.1
      let display := trimChars p.2
      if target.isEmpty then []
      else [⟨String.mk target, some (String.mk display)⟩]
  | none =>
      let target := trimChars inner
      if target.isEmpty then []
      else [⟨String.mk target, none⟩]

theorem findClose_length : ∀ (l : List Char) (p : List Char × List Char),
    findClose l = some p → p.2.length + 2 ≤ l.length
  | [], _, h => by simp [findClose] at h
  | [c], _, h => by simp [findClose] at h
  | c :: d :: rest2, p, h => by
      rw [findClose] at h
      by_cases hc : c = ']' ∧ d = ']'
      · simp only [if_pos hc, Option.some.injEq] at h
        subst h
        simp
      · simp only [if_neg hc, Option.map_eq_some'] at h
        obtain ⟨q, hq, hqp⟩ := h
        have := findClose_length (d :: rest2) q hq
        subst hqp
        simp only [List.length_cons] at this ⊢
        omega

/-- The scanning loop of `extract_wiki_links`: on `[[`, look for the
closing `]]`; when found, extract the bracketed link and resume after
the `]]`; when absent, advance one character (the loop's final
`i += 1`). All other characters are skipped. -/
def scanLinks : List Char → List ParsedLink
  | [] => []
  | c :: rest =>
      if c = '[' then
        match rest with
        | '[' :: rest2 =>
            match hf : findClose rest2 with
            | some p => linkOfContent p.1 ++ scanLinks p.2
            | none => scanLinks ('[' :: rest2)
        | other => scanLinks other
      else scanLinks rest
termination_by l => l.length
decreasing_by
  all_goals simp only [List.length_cons]
  · have := findClose_length _ _ hf
    omega
  all_goals omega

/-- De-duplication by target keeping first occurrences
(`links.retain(|link| seen.insert(link.target.clone()))`). -/
def dedupStep (st : List ParsedLink × List String) (l : ParsedLink) :
    List ParsedLink × List String :=
  if st.2.contains l.target then st
  else (st.1 ++ [l], st.2 ++ [l.target])

/-- parser.rs `extract_wiki_links`. -/
def extract_wiki_links (content : String) : List ParsedLink :=
  ((scanLinks content.toList).foldl dedupStep ([], [])).1

/-! ## The graph invariant

`WF` is the invariant of spec §3: every edge's endpoints are live nodes,
at most one edge exists per ordered `(from, to)` pair, and `node_index`
is exactly consistent with the node arena (every entry points at the
node bearing its key, every node's name looks up to its own position). -/

def WF (g : WikiGraph) : Prop :=
  (∀ p ∈ g.node_index, p.2 < g.nodes.length ∧ g.nameAt p.2 = p.1) ∧
  (∀ j, j < g.nodes.length → g.getIdx (g.nameAt j) = some j) ∧
  (∀ e ∈ g.edges, e.src < g.nodes.length ∧ e.dst < g.nodes.length) ∧
  (g.edges.map (fun e => (e.src, e.dst))).Nodup

instance WF.instDecidable (g : WikiGraph) : Decidable (WF g) := by
  unfold WF
  infer_instance

/-! ### Association-list lemmas (HashMap model) -/

theorem assocFind_nil (k : String) : assocFind [] k = none := rfl

theorem assocFind_cons (p : String × Nat) (m : List (String × Nat))
    (k : String) :
    assocFind (p :: m) k = if p.1 = k then some p.2 else assocFind m k := by
  by_cases h : p.1 = k
  · simp [assocFind, List.find?_cons_of_pos, h]
  · simp [assocFind, List.find?_cons_of_neg, h]

theorem assocFind_mem {m : List (String × Nat)} {k : String} {v : Nat}
    (h : assocFind m k = some v) : (k, v) ∈ m := by
  induction m with
  | nil => simp [assocFind_nil] at h
  | cons p rest ih =>
      rw [assocFind_cons] at h
      by_cases hp : p.1 = k
      · simp only [if_pos hp, Option.some.injEq] at h
        have hpk : p = (k, v) := by
          cases p
          simp_all
        rw [← hpk]
        exact List.mem_cons_self _ _
      · simp only [if_neg hp] at h
        exact List.mem_cons_of_mem _ (ih h)

theorem assocFind_remove_self (m : List (String × Nat)) (k : String) :
    assocFind (assocRemove m k) k = none := by
  induction m with
  | nil => rfl
  | cons p rest ih =>
      simp only [assocRemove, List.filter_cons] at ih ⊢
      by_cases hp : p.1 = k
      · rw [if_neg (by simp [hp])]
        exact ih
      · rw [if_pos (by simp [hp]), assocFind_cons, if_neg hp]
        exact ih

theorem assocFind_remove_ne (m : List (String × Nat)) {k k' : String}
    (h : k' ≠ k) : assocFind (assocRemove m k) k' = assocFind m k' := by
  induction m with
  | nil => rfl
  | cons p rest ih =>
      simp only [assocRemove, List.filter_cons] at ih ⊢
      by_cases hp : p.1 = k
      · rw [if_neg (by simp [hp]), assocFind_cons,
          if_neg (by rw [hp]; exact fun hc => h hc.symm)]
        exact ih
      · rw [if_pos (by simp [hp]), assocFind_cons, assocFind_cons]
        by_cases hpk : p.1 = k'
        · simp [hpk]
        · rw [if_neg hpk, if_neg hpk]
          exact ih

theorem assocRemove_subset {m : List (String × Nat)} {k : String}
    {p : String × Nat} (h : p ∈ assocRemove m k) : p ∈ m ∧ p.1 ≠ k := by
  unfold assocRemove at h
  have hm := List.mem_of_mem_filter h
  have hp := List.of_mem_filter h
  simp only [bne_iff_ne, ne_eq, decide_eq_true_eq] at hp
  exact ⟨hm, hp⟩

theorem assocInsert_find_self (m : List (String × Nat)) (k : String)
    (v : Nat) : assocFind (assocInsert m k v) k = some v := by
  unfold assocInsert
  by_cases hfound : (m.find? (fun p => p.1 == k)).isSome
  · rw [if_pos hfound]
    induction m with
    | nil => simp at hfound
    | cons p rest ih =>
        by_cases hp : p.1 = k
        · simp [assocFind_cons, hp]
        · rw [List.map_cons, if_neg (by simpa using hp), assocFind_cons,
            if_neg hp]
          apply ih
          simpa [List.find?_cons_of_neg, hp] using hfound
  · rw [if_neg hfound]
    rw [Option.not_isSome_iff_eq_none] at hfound
    induction m with
    | nil => simp [assocFind_cons]
    | cons p rest ih =>
        by_cases hp : p.1 = k
        · simp [List.find?_cons_of_pos, hp] at hfound
        · rw [List.cons_append, assocFind_cons, if_neg hp]
          apply ih
          simpa [List.find?_cons_of_neg, hp] using hfound

theorem assocInsert_find_ne (m : List (String × Nat)) {k k' : String}
    (v : Nat) (h : k' ≠ k) :
    assocFind (assocInsert m k v) k' = assocFind m k' := by
  unfold assocInsert
  by_cases hfound : (m.find? (fun p => p.1 == k)).isSome
  · rw [if_pos hfound]
    induction m with
    | nil => rfl
    | cons p rest ih =>
        by_cases hp : p.1 = k
        · rw [List.map_cons, if_pos (by simpa using hp), assocFind_cons,
            assocFind_cons, if_neg (fun hc => h hc.symm),
            if_neg (by rw [hp]; exact fun hc => h hc.symm)]
          by_cases hrest : (rest.find? (fun p => p.1 == k)).isSome
          · exact ih hrest
          · rw [Option.not_isSome_iff_eq_none] at hrest
            clear ih hfound
            induction rest with
            | nil => rfl
            | cons q rest2 ih2 =>
                by_cases hq : q.1 = k
                · simp [List.find?_cons_of_pos, hq] at hrest
                · rw [List.map_cons, if_neg (by simpa using hq),
                    assocFind_cons, assocFind_cons]
                  rw [ih2 (by simpa [List.find?_cons_of_neg, hq] using hrest)]
        · rw [List.map_cons, if_neg (by simpa using hp), assocFind_cons,
            assocFind_cons]
          by_cases hpk : p.1 = k'
          · simp [hpk]
          · rw [if_neg hpk, if_neg hpk]
            by_cases hrest : (rest.find? (fun p => p.1 == k)).isSome
            · exact ih hrest
            · simp [List.find?_cons_of_neg, hp, hrest] at hfound
  · rw [if_neg hfound]
    induction m with
    | nil =>
        rw [List.nil_append, assocFind_cons, if_neg (fun hc => h hc.symm)]
    | cons p rest ih =>
        by_cases hp : p.1 = k
        · simp [List.find?_cons_of_pos, hp] at hfound
        · rw [List.cons_append, assocFind_cons, assocFind_cons]
          by_cases hpk : p.1 = k'
          · simp [hpk]
          · rw [if_neg hpk, if_neg hpk]
            exact ih (by simpa [List.find?_cons_of_neg, hp] using hfound)

/-! ### List indexing helpers -/

theorem get?_set_ne {α : Type} (l : List α) {i j : Nat} (a : α)
    (h : i ≠ j) : (l.set i a).get? j = l.get? j := by
  induction l generalizing i j with
  | nil => simp
  | cons x xs ih =>
      cases i with
      | zero =>
          cases j with
          | zero => exact absurd rfl h
          | succ j => rfl
      | succ i =>
          cases j with
          | zero => rfl
          | succ j => simpa using ih (fun hc => h (by rw [hc]))

theorem get?_set_self {α : Type} (l : List α) {i : Nat} (a : α)
    (h : i < l.length) : (l.set i a).get? i = some a := by
  induction l generalizing i with
  | nil => simp at h
  | cons x xs ih =>
      cases i with
      | zero => rfl
      | succ i => simpa using ih (by simpa using h)

theorem get?_append_left {α : Type} {l l' : List α} {j : Nat}
    (h : j < l.length) : (l ++ l').get? j = l.get? j := by
  induction l generalizing j with
  | nil => simp at h
  | cons x xs ih =>
      cases j with
      | zero => rfl
      | succ j => simpa using ih (by simpa using h)

theorem get?_append_len {α : Type} (l : List α) (a : α) :
    (l ++ [a]).get? l.length = some a := by
  induction l with
  | nil => rfl
  | cons x xs ih => simp [ih]

theorem get?_take_lt {α : Type} {l : List α} {j n : Nat} (h : j < n) :
    (l.take n).get? j = l.get? j := by
  induction l generalizing j n with
  | nil => simp
  | cons x xs ih =>
      cases n with
      | zero => simp at h
      | succ n =>
          cases j with
          | zero => rfl
          | succ j => simpa using ih (by omega)

theorem getD_eq_get? {α : Type} (l : List α) (j : Nat) (d : α) :
    l.getD j d = (l.get? j).getD d := by
  simp [List.getD]

theorem assocInsert_mem {m : List (String × Nat)} {k : String} {v : Nat}
    {p : String × Nat} (h : p ∈ assocInsert m k v) :
    p = (k, v) ∨ (p ∈ m ∧ p.1 ≠ k) := by
  unfold assocInsert at h
  by_cases hfound : (m.find? (fun q => q.1 == k)).isSome
  · rw [if_pos hfound] at h
    obtain ⟨q, hq, hqp⟩ := List.mem_map.mp h
    by_cases hqk : q.1 = k
    · rw [if_pos (by simpa using hqk)] at hqp
      left
      exact hqp.symm
    · rw [if_neg (by simpa using hqk)] at hqp
      right
      subst hqp
      exact ⟨hq, hqk⟩
  · rw [if_neg hfound] at h
    rcases List.mem_append.mp h with hm | hm
    · right
      refine ⟨hm, fun hc => ?_⟩
      rw [Option.not_isSome_iff_eq_none] at hfound
      have := List.find?_eq_none.mp hfound p hm
      simp [hc] at this
    · left
      simpa using hm

/-! ### Basic consequences of `WF` -/

theorem WF_new : WF WikiGraph.new := by
  refine ⟨?_, ?_, ?_, ?_⟩ <;> simp [WikiGraph.new]

theorem WF.getIdx_spec {g : WikiGraph} (h : WF g) {n : String} {i : Nat}
    (hi : g.getIdx n = some i) : i < g.nodes.length ∧ g.nameAt i = n := by
  have hm : (n, i) ∈ g.node_index := assocFind_mem hi
  exact h.1 (n, i) hm

theorem WF.nameAt_inj {g : WikiGraph} (h : WF g) {i j : Nat}
    (hi : i < g.nodes.length) (hj : j < g.nodes.length)
    (hij : g.nameAt i = g.nameAt j) : i = j := by
  have h1 := h.2.1 i hi
  have h2 := h.2.1 j hj
  rw [hij] at h1
  exact Option.some.inj (h1.symm.trans h2)

/-! ### Invariant preservation: `add_page` -/

theorem add_page_WF {g : WikiGraph} (h : WF g) (p : PageNode) :
    WF (g.add_page p).1 := by
  unfold WikiGraph.add_page
  cases hidx : g.getIdx p.name with
  | some idx =>
      obtain ⟨hlt, hname⟩ := h.getIdx_spec hidx
      simp only
      refine ⟨?_, ?_, ?_, ?_⟩
      · intro q hq
        have hold := h.1 q hq
        constructor
        · simpa [List.length_set] using hold.1
        · by_cases hqi : q.2 = idx
          · rw [WikiGraph.nameAt] at hold ⊢
            simp only [hqi] at hold ⊢
            rw [getD_eq_get?, get?_set_self _ p hlt, Option.getD_some]
            exact hname.symm.trans hold.2
          · rw [WikiGraph.nameAt] at hold ⊢
            simp only [getD_eq_get?] at hold ⊢
            rw [get?_set_ne _ p (fun hc => hqi hc.symm)]
            exact hold.2
      · intro j hj
        have hj' : j < g.nodes.length := by simpa [List.length_set] using hj
        by_cases hji : j = idx
        · subst hji
          have : WikiGraph.nameAt { g with nodes := g.nodes.set j p } j
              = p.name := by
            rw [WikiGraph.nameAt, getD_eq_get?]
            simp only
            rw [get?_set_self _ p hj', Option.getD_some]
          rw [this]
          simpa [WikiGraph.getIdx] using hidx
        · have : WikiGraph.nameAt { g with nodes := g.nodes.set idx p } j
              = g.nameAt j := by
            rw [WikiGraph.nameAt, WikiGraph.nameAt, getD_eq_get?,
              getD_eq_get?, get?_set_ne _ p (fun hc => hji hc.symm)]
          rw [this]
          exact h.2.1 j hj'
      · intro e he
        simpa [List.length_set] using h.2.2.1 e he
      · exact h.2.2.2
  | none =>
      simp only
      refine ⟨?_, ?_, ?_, ?_⟩
      · intro q hq
        rcases assocInsert_mem hq with hq | ⟨hq, hne⟩
        · subst hq
          refine ⟨by simp, ?_⟩
          rw [WikiGraph.nameAt, getD_eq_get?]
          simp [get?_append_len]
        · have hold := h.1 q hq
          refine ⟨by simp; omega, ?_⟩
          rw [WikiGraph.nameAt, getD_eq_get?]
          simp only
          rw [get?_append_left hold.1]
          rw [WikiGraph.nameAt, getD_eq_get?] at hold
          exact hold.2
      · intro j hj
        simp only [List.length_append, List.length_cons,
          List.length_nil] at hj
        by_cases hje : j = g.nodes.length
        · subst hje
          have hn : WikiGraph.nameAt
              ⟨g.nodes ++ [p], g.edges,
                assocInsert g.node_index p.name g.nodes.length⟩
              g.nodes.length = p.name := by
            rw [WikiGraph.nameAt, getD_eq_get?]
            simp [get?_append_len]
          rw [hn, WikiGraph.getIdx]
          simp only
          exact assocInsert_find_self _ _ _
        · have hj' : j < g.nodes.length := by omega
          have hn : WikiGraph.nameAt
              ⟨g.nodes ++ [p], g.edges,
                assocInsert g.node_index p.name g.nodes.length⟩ j
              = g.nameAt j := by
            rw [WikiGraph.nameAt, WikiGraph.nameAt, getD_eq_get?,
              getD_eq_get?]
            simp only
            rw [get?_append_left hj']
          rw [hn, WikiGraph.getIdx]
          simp only
          have hne : g.nameAt j ≠ p.name := by
            intro hc
            have := h.2.1 j hj'
            rw [hc, hidx] at this
            cases this
          rw [assocInsert_find_ne _ _ hne]
          exact h.2.1 j hj'
      · intro e he
        have := h.2.2.1 e he
        constructor <;> (simp only [List.length_append]; omega)
      · exact h.2.2.2

/-! ### Invariant preservation: `add_link` -/

theorem add_link_WF {g : WikiGraph} (h : WF g) (fromName toName : String)
    (link : WikiLink) : WF (g.add_link fromName toName link).1 := by
  unfold WikiGraph.add_link
  cases hf : g.getIdx fromName with
  | none => exact h
  | some f =>
      cases ht : g.getIdx toName with
      | none => exact h
      | some t =>
          simp only
          by_cases hce : g.contains_edge f t
          · rw [if_pos hce]
            exact h
          · rw [if_neg hce]
            refine ⟨h.1, h.2.1, ?_, ?_⟩
            · intro e he
              rcases List.mem_append.mp he with he | he
              · exact h.2.2.1 e he
              · have : e = ⟨f, t, link⟩ := by simpa using he
                subst this
                exact ⟨(h.getIdx_spec hf).1, (h.getIdx_spec ht).1⟩
            · rw [List.map_append, List.nodup_append]
              refine ⟨h.2.2.2, by simp, ?_⟩
              intro q hq hq2
              simp only [List.map_cons, List.map_nil, List.mem_singleton]
                at hq2
              obtain ⟨e, he, hef⟩ := List.mem_map.mp hq
              rw [WikiGraph.contains_edge] at hce
              apply hce
              rw [List.any_eq_true]
              refine ⟨e, he, ?_⟩
              rw [hq2] at hef
              have h1 : e.src = f := congrArg Prod.fst hef
              have h2 : e.dst = t := congrArg Prod.snd hef
              simp [h1, h2]

/-! ### Invariant preservation: `remove_outgoing_edges` and `clear` -/

theorem remove_outgoing_edges_WF {g : WikiGraph} (h : WF g)
    (name : String) : WF (g.remove_outgoing_edges name) := by
  unfold WikiGraph.remove_outgoing_edges
  cases hidx : assocFind g.node_index name with
  | none => exact h
  | some idx =>
      simp only
      refine ⟨h.1, h.2.1, ?_, ?_⟩
      · intro e he
        exact h.2.2.1 e (List.mem_of_mem_filter he)
      · exact List.Nodup.sublist
          (List.Sublist.map _ (List.filter_sublist _)) h.2.2.2

theorem clear_WF (g : WikiGraph) : WF g.clear := by
  refine ⟨?_, ?_, ?_, ?_⟩ <;> simp [WikiGraph.clear]

/-! ### `remove_page`: explicit form and properties -/

theorem get?_eq_some_getD {α : Type} [Inhabited α] (l : List α) {j : Nat}
    (h : j < l.length) : l.get? j = some (l.getD j default) := by
  rw [getD_eq_get?]
  cases hl : l.get? j with
  | none =>
      have := List.get?_eq_none.mp hl
      omega
  | some a => rfl

/-- The number of edges incident to a page (incoming plus outgoing,
self-loops counted once), the quantity `remove_page` deletes. -/
def incidentEdgeCount (g : WikiGraph) (name : String) : Nat :=
  match g.getIdx name with
  | none => 0
  | some idx =>
      (g.edges.filter (fun e => e.src == idx || e.dst == idx)).length

/-- The state after a successful `remove_page`, written out explicitly:
`node_index` loses the removed name (with the relocated node re-keyed to
the removed slot when a swap happens), the node arena swap-removes, and
surviving edges are renumbered. -/
theorem remove_page_some {g : WikiGraph} {name : String} {idx : Nat}
    (hlt : idx < g.nodes.length)
    (hidx : assocFind g.node_index name = some idx) :
    (g.remove_page name).1 =
      ⟨(g.nodes.set idx (g.nodes.getD (g.nodes.length - 1) default)).take
          (g.nodes.length - 1),
        (g.edges.filter (fun e => e.src != idx && e.dst != idx)).map
          (fun e => ⟨WikiGraph.renumber (g.nodes.length - 1) idx e.src,
                     WikiGraph.renumber (g.nodes.length - 1) idx e.dst,
                     e.link⟩),
        if idx = g.nodes.length - 1 then assocRemove g.node_index name
        else assocInsert (assocRemove g.node_index name)
          (g.nodes.getD (g.nodes.length - 1) default).name idx⟩ := by
  have hlast : g.nodes.length - 1 < g.nodes.length := by omega
  unfold WikiGraph.remove_page
  rw [hidx]
  simp only
  by_cases hc : idx = g.nodes.length - 1
  · rw [if_neg (fun hne => hne hc), if_pos hc]
    unfold WikiGraph.remove_node
    split
    · rfl
    · next h => exact absurd hlt h
  · rw [if_pos hc, if_neg hc, get?_eq_some_getD _ hlast]
    unfold WikiGraph.remove_node
    split
    · rfl
    · next h => exact absurd hlt h

theorem renumber_inj {last idx a b : Nat} (ha : a ≠ idx) (hb : b ≠ idx)
    (h : WikiGraph.renumber last idx a = WikiGraph.renumber last idx b) :
    a = b := by
  unfold WikiGraph.renumber at h
  by_cases h1 : a = last
  · by_cases h2 : b = last
    · rw [h1, h2]
    · rw [if_pos (by simp [h1]), if_neg (by simp [h2])] at h
      exact absurd h.symm hb
  · by_cases h2 : b = last
    · rw [if_neg (by simp [h1]), if_pos (by simp [h2])] at h
      exact absurd h ha
    · rw [if_neg (by simp [h1]), if_neg (by simp [h2])] at h
      exact h

theorem renumber_lt {len idx a : Nat} (hlt : idx < len) (ha : a < len)
    (hne : a ≠ idx) : WikiGraph.renumber (len - 1) idx a < len - 1 := by
  unfold WikiGraph.renumber
  by_cases h1 : a = len - 1
  · rw [if_pos (by simpa using h1)]
    omega
  · rw [if_neg (by simpa using h1)]
    omega

theorem take_set_get? {g : WikiGraph} {idx j : Nat}
    (hlt : idx < g.nodes.length) (hj : j < g.nodes.length - 1) :
    ((g.nodes.set idx (g.nodes.getD (g.nodes.length - 1) default)).take
        (g.nodes.length - 1)).get? j =
      if j = idx then some (g.nodes.getD (g.nodes.length - 1) default)
      else g.nodes.get? j := by
  rw [get?_take_lt hj]
  by_cases hji : j = idx
  · rw [if_pos hji, hji, get?_set_self _ _ hlt]
  · rw [if_neg hji, get?_set_ne _ _ (fun hc => hji hc.symm)]

theorem filter_length_split (l : List Edge) (idx : Nat) :
    (l.filter (fun e => e.src != idx && e.dst != idx)).length +
      (l.filter (fun e => e.src == idx || e.dst == idx)).length =
      l.length := by
  induction l with
  | nil => rfl
  | cons e rest ih =>
      simp only [List.filter_cons]
      by_cases hs : e.src = idx ∨ e.dst = idx
      · have hks : ¬((e.src != idx && e.dst != idx) = true) := by
          simp only [Bool.and_eq_true, bne_iff_ne, ne_eq]
          tauto
        have his : (e.src == idx || e.dst == idx) = true := by
          simp only [Bool.or_eq_true, beq_iff_eq]
          tauto
        rw [if_neg hks, if_pos his]
        simp only [List.length_cons]
        omega
      · push_neg at hs
        have hks : (e.src != idx && e.dst != idx) = true := by
          simp only [Bool.and_eq_true, bne_iff_ne, ne_eq]
          tauto
        have his : ¬((e.src == idx || e.dst == idx) = true) := by
          simp only [Bool.or_eq_true, beq_iff_eq]
          tauto
        rw [if_pos hks, if_neg his]
        simp only [List.length_cons]
        omega

theorem WF.ne_idx_of_ne_name {g : WikiGraph} (h : WF g) {name : String}
    {idx : Nat} (hidx : g.getIdx name = some idx) {n : String} {j : Nat}
    (hj : g.getIdx n = some j) (hne : n ≠ name) : j ≠ idx := by
  intro hc
  subst hc
  obtain ⟨hlt, hnm⟩ := h.getIdx_spec hidx
  obtain ⟨_, hnm2⟩ := h.getIdx_spec hj
  exact hne (hnm2.symm.trans hnm)

/-- How `node_index` lookups change across `remove_page`: every name
other than the removed one resolves to its old position, renumbered when
the swap relocated it. -/
theorem remove_page_getIdx {g : WikiGraph} {name : String} {idx : Nat}
    (h : WF g) (hidx : g.getIdx name = some idx) (n : String)
    (hne : n ≠ name) :
    ((g.remove_page name).1).getIdx n =
      (g.getIdx n).map (WikiGraph.renumber (g.nodes.length - 1) idx) := by
  obtain ⟨hlt, hnm⟩ := h.getIdx_spec hidx
  have hlast : g.nodes.length - 1 < g.nodes.length := by omega
  have hsw : g.getIdx (g.nodes.getD (g.nodes.length - 1) default).name
      = some (g.nodes.length - 1) := h.2.1 _ hlast
  rw [remove_page_some hlt hidx]
  rw [WikiGraph.getIdx]
  simp only
  by_cases hc : idx = g.nodes.length - 1
  · rw [if_pos hc, assocFind_remove_ne _ hne]
    cases hn : g.getIdx n with
    | none => exact hn
    | some j =>
        have hjne : j ≠ idx := h.ne_idx_of_ne_name hidx hn hne
        have hjlast : j ≠ g.nodes.length - 1 := by rw [← hc]; exact hjne
        rw [show assocFind g.node_index n = some j from hn]
        simp only [Option.map_some']
        rw [WikiGraph.renumber, if_neg (by simp [hjlast])]
  · rw [if_neg hc]
    by_cases hsn : n = (g.nodes.getD (g.nodes.length - 1) default).name
    · rw [hsn, assocInsert_find_self, hsw]
      simp only [Option.map_some']
      rw [WikiGraph.renumber, if_pos (by simp)]
    · rw [assocInsert_find_ne _ _ hsn, assocFind_remove_ne _ hne]
      cases hn : g.getIdx n with
      | none => exact hn
      | some j =>
          have hjlast : j ≠ g.nodes.length - 1 := by
            intro hc2
            subst hc2
            obtain ⟨_, hnm2⟩ := h.getIdx_spec hn
            exact hsn hnm2.symm
          rw [show assocFind g.node_index n = some j from hn]
          simp only [Option.map_some']
          rw [WikiGraph.renumber, if_neg (by simp [hjlast])]

/-- How the node arena changes across `remove_page`: every slot other
than the removed one holds its old node, at its renumbered position. -/
theorem remove_page_get?_nodes {g : WikiGraph} {name : String} {idx : Nat}
    (h : WF g) (hidx : g.getIdx name = some idx) {j : Nat}
    (hj : j < g.nodes.length) (hjne : j ≠ idx) :
    ((g.remove_page name).1).nodes.get?
        (WikiGraph.renumber (g.nodes.length - 1) idx j) =
      g.nodes.get? j := by
  obtain ⟨hlt, hnm⟩ := h.getIdx_spec hidx
  rw [remove_page_some hlt hidx]
  simp only
  by_cases hjl : j = g.nodes.length - 1
  · have hil : idx ≠ g.nodes.length - 1 := by rw [← hjl]; exact fun hc => hjne hc.symm
    rw [WikiGraph.renumber, if_pos (by simp [hjl])]
    rw [take_set_get? hlt (by omega), if_pos rfl, hjl,
      get?_eq_some_getD _ (by omega)]
  · rw [WikiGraph.renumber, if_neg (by simp [hjl])]
    rw [take_set_get? hlt (by omega), if_neg hjne]

/-- Frame property of `remove_page`: every other page is retrievable by
name with its record unchanged (and absent names stay absent). -/
theorem remove_page_get_page {g : WikiGraph} {name : String} {idx : Nat}
    (h : WF g) (hidx : g.getIdx name = some idx) (n : String)
    (hne : n ≠ name) :
    (g.remove_page name).1.get_page n = g.get_page n := by
  rw [WikiGraph.get_page, WikiGraph.get_page,
    remove_page_getIdx h hidx n hne]
  cases hn : g.getIdx n with
  | none => rfl
  | some j =>
      simp only [Option.map_some', Option.some_bind]
      exact remove_page_get?_nodes h hidx (h.getIdx_spec hn).1
        (h.ne_idx_of_ne_name hidx hn hne)

/-- After `remove_page`, the removed name no longer exists. -/
theorem remove_page_not_exists {g : WikiGraph} {name : String} {idx : Nat}
    (h : WF g) (hidx : g.getIdx name = some idx) :
    (g.remove_page name).1.page_exists name = false := by
  obtain ⟨hlt, hnm⟩ := h.getIdx_spec hidx
  have hlast : g.nodes.length - 1 < g.nodes.length := by omega
  rw [WikiGraph.page_exists, remove_page_some hlt hidx]
  simp only
  by_cases hc : idx = g.nodes.length - 1
  · rw [if_pos hc, assocFind_remove_self]
    rfl
  · rw [if_neg hc]
    have hswne : name ≠ (g.nodes.getD (g.nodes.length - 1) default).name := by
      intro hceq
      have hsw : g.getIdx (g.nodes.getD (g.nodes.length - 1) default).name
          = some (g.nodes.length - 1) := h.2.1 _ hlast
      rw [← hceq, hidx] at hsw
      exact hc (Option.some.inj hsw)
    rw [assocInsert_find_ne _ _ hswne, assocFind_remove_self]
    rfl

/-- `remove_page` deletes exactly the edges incident to the removed
page. -/
theorem remove_page_link_count {g : WikiGraph} {name : String} {idx : Nat}
    (h : WF g) (hidx : g.getIdx name = some idx) :
    (g.remove_page name).1.link_count + incidentEdgeCount g name
      = g.link_count := by
  obtain ⟨hlt, hnm⟩ := h.getIdx_spec hidx
  rw [WikiGraph.link_count, remove_page_some hlt hidx]
  simp only [List.length_map]
  rw [incidentEdgeCount, hidx]
  exact filter_length_split g.edges idx

theorem WF.entry_getIdx {g : WikiGraph} (h : WF g) {q : String × Nat}
    (hq : q ∈ g.node_index) : g.getIdx q.1 = some q.2 := by
  obtain ⟨hlt, hn⟩ := h.1 q hq
  have := h.2.1 q.2 hlt
  rw [hn] at this
  exact this

theorem removed_edges_bounds {g : WikiGraph} {idx : Nat} (h : WF g)
    (hlt : idx < g.nodes.length) :
    ∀ e' ∈ (g.edges.filter (fun e => e.src != idx && e.dst != idx)).map
        (fun e => Edge.mk
          (WikiGraph.renumber (g.nodes.length - 1) idx e.src)
          (WikiGraph.renumber (g.nodes.length - 1) idx e.dst) e.link),
      e'.src < g.nodes.length - 1 ∧ e'.dst < g.nodes.length - 1 := by
  intro e' he'
  obtain ⟨e, he, hee⟩ := List.mem_map.mp he'
  have hkept := List.of_mem_filter he
  have hmem := List.mem_of_mem_filter he
  have hb := h.2.2.1 e hmem
  simp only [Bool.and_eq_true, bne_iff_ne, ne_eq] at hkept
  subst hee
  exact ⟨renumber_lt hlt hb.1 hkept.1, renumber_lt hlt hb.2 hkept.2⟩

theorem removed_edges_nodup {g : WikiGraph} {idx : Nat} (h : WF g)
    (hlt : idx < g.nodes.length) :
    (((g.edges.filter (fun e => e.src != idx && e.dst != idx)).map
        (fun e => Edge.mk
          (WikiGraph.renumber (g.nodes.length - 1) idx e.src)
          (WikiGraph.renumber (g.nodes.length - 1) idx e.dst) e.link)).map
      (fun e => (e.src, e.dst))).Nodup := by
  rw [List.map_map]
  have heq : ((fun e : Edge => (e.src, e.dst)) ∘
      (fun e : Edge => Edge.mk
        (WikiGraph.renumber (g.nodes.length - 1) idx e.src)
        (WikiGraph.renumber (g.nodes.length - 1) idx e.dst) e.link)) =
      ((fun q : Nat × Nat => (WikiGraph.renumber (g.nodes.length - 1) idx q.1,
        WikiGraph.renumber (g.nodes.length - 1) idx q.2)) ∘
       (fun e : Edge => (e.src, e.dst))) := rfl
  rw [heq, ← List.map_map]
  have hsub : ((g.edges.filter
      (fun e => e.src != idx && e.dst != idx)).map
      (fun e : Edge => (e.src, e.dst))).Nodup :=
    List.Nodup.sublist (List.Sublist.map _ (List.filter_sublist _)) h.2.2.2
  refine List.Nodup.map_on ?_ hsub
  intro x hx y hy hxy
  obtain ⟨ex, hex, hexq⟩ := List.mem_map.mp hx
  obtain ⟨ey, hey, heyq⟩ := List.mem_map.mp hy
  have hkx := List.of_mem_filter hex
  have hky := List.of_mem_filter hey
  simp only [Bool.and_eq_true, bne_iff_ne, ne_eq] at hkx hky
  have h1 : WikiGraph.renumber (g.nodes.length - 1) idx x.1
      = WikiGraph.renumber (g.nodes.length - 1) idx y.1 :=
    congrArg Prod.fst hxy
  have h2 : WikiGraph.renumber (g.nodes.length - 1) idx x.2
      = WikiGraph.renumber (g.nodes.length - 1) idx y.2 :=
    congrArg Prod.snd hxy
  have hx1 : x.1 ≠ idx := by rw [← hexq]; exact hkx.1
  have hx2 : x.2 ≠ idx := by rw [← hexq]; exact hkx.2
  have hy1 : y.1 ≠ idx := by rw [← heyq]; exact hky.1
  have hy2 : y.2 ≠ idx := by rw [← heyq]; exact hky.2
  have := renumber_inj hx1 hy1 h1
  have := renumber_inj hx2 hy2 h2
  cases x
  cases y
  simp_all

theorem nameAt_mk (nodes : List PageNode) (edges : List Edge)
    (index : List (String × Nat)) (j : Nat) :
    WikiGraph.nameAt ⟨nodes, edges, index⟩ j = (nodes.getD j default).name :=
  rfl

theorem getIdx_mk (nodes : List PageNode) (edges : List Edge)
    (index : List (String × Nat)) (n : String) :
    WikiGraph.getIdx ⟨nodes, edges, index⟩ n = assocFind index n := rfl

theorem take_set_getD {g : WikiGraph} {idx j : Nat}
    (hlt : idx < g.nodes.length) (hj : j < g.nodes.length - 1) :
    ((g.nodes.set idx (g.nodes.getD (g.nodes.length - 1) default)).take
        (g.nodes.length - 1)).getD j default =
      if j = idx then g.nodes.getD (g.nodes.length - 1) default
      else g.nodes.getD j default := by
  rw [getD_eq_get?, take_set_get? hlt hj]
  by_cases hji : j = idx
  · rw [if_pos hji, if_pos hji]
    rfl
  · rw [if_neg hji, if_neg hji, getD_eq_get?]

/-- Invariant preservation across `remove_page`, including the
index-fix-up for the node relocated by swap-remove. -/
theorem remove_page_WF {g : WikiGraph} (h : WF g) (name : String) :
    WF (g.remove_page name).1 := by
  cases hidx : g.getIdx name with
  | none =>
      unfold WikiGraph.remove_page
      rw [show assocFind g.node_index name = none from hidx]
      exact h
  | some idx =>
      obtain ⟨hlt, hnm⟩ := h.getIdx_spec hidx
      have hlast : g.nodes.length - 1 < g.nodes.length := by omega
      have hswidx : g.getIdx
          (g.nodes.getD (g.nodes.length - 1) default).name
          = some (g.nodes.length - 1) := h.2.1 _ hlast
      rw [remove_page_some hlt hidx]
      have hlen' : ((g.nodes.set idx
          (g.nodes.getD (g.nodes.length - 1) default)).take
          (g.nodes.length - 1)).length = g.nodes.length - 1 := by
        rw [List.length_take, List.length_set]
        omega
      by_cases hc : idx = g.nodes.length - 1
      · rw [if_pos hc]
        refine ⟨?_, ?_, ?_, ?_⟩
        · intro q hq
          obtain ⟨hqmem, hqname⟩ := assocRemove_subset hq
          have hqidx := h.entry_getIdx hqmem
          have hq2ne : q.2 ≠ idx := h.ne_idx_of_ne_name hidx hqidx hqname
          have hq2lt : q.2 < g.nodes.length := (h.getIdx_spec hqidx).1
          have hq2lt' : q.2 < g.nodes.length - 1 := by omega
          refine ⟨by rw [hlen']; exact hq2lt', ?_⟩
          rw [nameAt_mk, take_set_getD hlt hq2lt', if_neg hq2ne]
          exact (h.getIdx_spec hqidx).2
        · intro j hj
          rw [hlen'] at hj
          have hjne : j ≠ idx := by omega
          rw [nameAt_mk, getIdx_mk, take_set_getD hlt hj, if_neg hjne]
          have hjidx := h.2.1 j (by omega)
          have hnamene : g.nameAt j ≠ name := by
            intro hceq
            rw [hceq, hidx] at hjidx
            exact hjne (Option.some.inj hjidx).symm
          show assocFind (assocRemove g.node_index name) (g.nameAt j)
            = some j
          rw [assocFind_remove_ne _ hnamene]
          exact hjidx
        · intro e he
          rw [hlen']
          exact removed_edges_bounds h hlt e he
        · exact removed_edges_nodup h hlt
      · rw [if_neg hc]
        have hswname_ne : (g.nodes.getD (g.nodes.length - 1) default).name
            ≠ name := by
          intro hceq
          rw [hceq, hidx] at hswidx
          exact hc (Option.some.inj hswidx)
        refine ⟨?_, ?_, ?_, ?_⟩
        · intro q hq
          rcases assocInsert_mem hq with hq | ⟨hq, hqsw⟩
          · subst hq
            refine ⟨by rw [hlen']; omega, ?_⟩
            rw [nameAt_mk, take_set_getD hlt (by omega), if_pos rfl]
          · obtain ⟨hqmem, hqname⟩ := assocRemove_subset hq
            have hqidx := h.entry_getIdx hqmem
            have hq2ne : q.2 ≠ idx := h.ne_idx_of_ne_name hidx hqidx hqname
            have hq2lt : q.2 < g.nodes.length := (h.getIdx_spec hqidx).1
            have hq2last : q.2 ≠ g.nodes.length - 1 := by
              intro hceq
              have hn2 := (h.getIdx_spec hqidx).2
              rw [hceq] at hn2
              exact hqsw hn2.symm
            have hq2lt' : q.2 < g.nodes.length - 1 := by omega
            refine ⟨by rw [hlen']; exact hq2lt', ?_⟩
            rw [nameAt_mk, take_set_getD hlt hq2lt', if_neg hq2ne]
            exact (h.getIdx_spec hqidx).2
        · intro j hj
          rw [hlen'] at hj
          by_cases hji : j = idx
          · subst hji
            rw [nameAt_mk, getIdx_mk, take_set_getD hlt hj, if_pos rfl]
            exact assocInsert_find_self _ _ _
          · rw [nameAt_mk, getIdx_mk, take_set_getD hlt hj, if_neg hji]
            have hjidx := h.2.1 j (by omega)
            have hnamene : g.nameAt j ≠ name := by
              intro hceq
              rw [hceq, hidx] at hjidx
              exact hji (Option.some.inj hjidx).symm
            have hswne : g.nameAt j
                ≠ (g.nodes.getD (g.nodes.length - 1) default).name := by
              intro hceq
              rw [hceq, hswidx] at hjidx
              have := (Option.some.inj hjidx).symm
              omega
            show assocFind (assocInsert (assocRemove g.node_index name)
              (g.nodes.getD (g.nodes.length - 1) default).name idx)
              (g.nameAt j) = some j
            rw [assocInsert_find_ne _ _ hswne,
              assocFind_remove_ne _ hnamene]
            exact hjidx
        · intro e he
          rw [hlen']
          exact removed_edges_bounds h hlt e he
        · exact removed_edges_nodup h hlt

/-! ### Invariant preservation: `update_page` and `build_from_directory` -/

theorem updateLinkStep_WF {st : WikiGraph × List String} (h : WF st.1)
    (name : String) (link : ParsedLink) :
    WF (WikiGraph.updateLinkStep name st link).1 := by
  unfold WikiGraph.updateLinkStep
  simp only
  by_cases hpe : st.1.page_exists link.target = true
  · rw [if_pos hpe]
    exact add_link_WF h _ _ _
  · rw [if_neg hpe]
    exact add_link_WF (add_page_WF h _) _ _ _

theorem foldl_updateLinkStep_WF (name : String) :
    ∀ (links : List ParsedLink) (st : WikiGraph × List String),
      WF st.1 → WF (links.foldl (WikiGraph.updateLinkStep name) st).1
  | [], _, h => h
  | l :: rest, st, h =>
      foldl_updateLinkStep_WF name rest _ (updateLinkStep_WF h name l)

theorem update_page_WF {g : WikiGraph} (h : WF g) (name : String)
    (file_path : String) (metadata : List (String × List String))
    (links : List ParsedLink) (last_modified : Nat) :
    WF (g.update_page name file_path metadata links last_modified).1 := by
  unfold WikiGraph.update_page
  simp only
  exact foldl_updateLinkStep_WF name links _
    (remove_outgoing_edges_WF (add_page_WF h _) name)

theorem addPagesPass_WF :
    ∀ (ps : List (String × String × ParsedPageData)) {g : WikiGraph},
      WF g → WF (addPagesPass g ps)
  | [], _, h => h
  | p :: rest, g, h => by
      unfold addPagesPass
      rw [List.foldl_cons]
      exact addPagesPass_WF rest (add_page_WF h _)

theorem addLinksStep_WF {g : WikiGraph} (h : WF g) (name : String) :
    ∀ (links : List ParsedLink),
      WF (links.foldl
        (fun g link =>
          let g := if g.page_exists link.target then g
                   else (g.add_page (WikiGraph.stubPage link.target)).1
          (g.add_link name link.target ⟨link.display_text⟩).1) g) := by
  intro links
  induction links generalizing g with
  | nil => exact h
  | cons l rest ih =>
      rw [List.foldl_cons]
      apply ih
      by_cases hpe : g.page_exists l.target = true
      · simp only [if_pos hpe]
        exact add_link_WF h _ _ _
      · simp only [if_neg hpe]
        exact add_link_WF (add_page_WF h _) _ _ _

theorem addLinksPass_WF :
    ∀ (ps : List (String × String × ParsedPageData)) {g : WikiGraph},
      WF g → WF (addLinksPass g ps)
  | [], _, h => h
  | p :: rest, g, h => by
      unfold addLinksPass
      rw [List.foldl_cons]
      exact addLinksPass_WF rest (addLinksStep_WF h p.1 p.2.2.links)

theorem build_from_directory_WF (g : WikiGraph) (root : DirTree) :
    WF (build_from_directory g root).1 := by
  unfold build_from_directory
  cases hs : scanTree root with
  | error e => exact clear_WF g
  | ok pages =>
      simp only
      exact addLinksPass_WF pages (addPagesPass_WF pages (clear_WF g))

/-! ### Queue run invariant -/

theorem runQueueOps_invariant :
    ∀ (ops : List QueueOp) (q0 : List GraphEvent),
      (runQueueOps q0 ops).2.flatten ++ (runQueueOps q0 ops).1 =
        q0 ++ (ops.map pushedOf).flatten
  | [], q0 => by simp [runQueueOps]
  | op :: rest, q0 => by
      rw [runQueueOps]
      cases op with
      | push e =>
          have ih := runQueueOps_invariant rest (q0 ++ [e])
          simp only [applyQueueOp, pushedOf, List.map_cons,
            List.flatten_cons, List.nil_append, List.append_assoc]
            at ih ⊢
          exact ih
      | pushAll es =>
          have ih := runQueueOps_invariant rest (q0 ++ es)
          simp only [applyQueueOp, pushedOf, List.map_cons,
            List.flatten_cons, List.nil_append, List.append_assoc]
            at ih ⊢
          exact ih
      | drainAll =>
          have ih := runQueueOps_invariant rest []
          simp only [List.nil_append] at ih
          simp only [applyQueueOp, pushedOf, List.map_cons,
            List.flatten_cons, List.nil_append, List.append_assoc]
          rw [ih]

/-- C6: over any sequence of `push`/`push_all`/`drain_all` calls starting
from the empty queue, the concatenation of everything the drains
returned, followed by what is still buffered, is exactly the
concatenation of everything pushed, in push order — so every pushed
event is delivered by exactly one drain (never twice, never dropped),
each drain returns its events in push order, and an event returned by
one drain can never be returned by a later one. -/
theorem claim_C6_queue_exactly_once (ops : List QueueOp) :
    (runQueueOps [] ops).2.flatten ++ (runQueueOps [] ops).1 =
      (ops.map pushedOf).flatten := by
  have := runQueueOps_invariant ops []
  rwa [List.nil_append] at this

/-- C7: a query with the empty filter list returns every page of the
graph, and the result set of `query [A, B]` is exactly the intersection
of the result sets of `query [A]` and `query [B]`. -/
theorem claim_C7_query_intersection
    (compile : String → Option (String → Bool)) (g : WikiGraph)
    (A B : Filter) :
    WikiGraph.query compile g [] = g.nodes ∧
    ∀ p : PageNode, p ∈ WikiGraph.query compile g [A, B] ↔
      (p ∈ WikiGraph.query compile g [A] ∧
       p ∈ WikiGraph.query compile g [B]) := by
  constructor
  · unfold WikiGraph.query matchesAllFilters
    simp
  · intro p
    unfold WikiGraph.query matchesAllFilters
    simp only [List.mem_filter, List.all_cons, List.all_nil,
      Bool.and_true, Bool.and_eq_true]
    tauto

/-- C8: a `Matches` filter whose pattern the regex engine rejects
matches no page and raises nothing, so any query containing it returns
the empty result. -/
theorem claim_C8_invalid_regex
    (compile : String → Option (String → Bool)) (key pattern : String)
    (hbad : compile pattern = none) (g : WikiGraph) (page : PageNode) :
    matchesPage compile g page (Filter.Matches key pattern) = false ∧
    ∀ filters : List Filter, Filter.Matches key pattern ∈ filters →
      WikiGraph.query compile g filters = [] := by
  have hm : ∀ pg : PageNode,
      matchesPage compile g pg (Filter.Matches key pattern) = false := by
    intro pg
    simp only [matchesPage]
    rw [hbad]
  refine ⟨hm page, ?_⟩
  intro filters hmem
  unfold WikiGraph.query
  rw [List.filter_eq_nil_iff]
  intro pg _
  unfold matchesAllFilters
  intro hall
  have := List.all_eq_true.mp hall _ hmem
  rw [hm pg] at this
  cases this

/-- The concrete regex-engine instance and page used to witness C8. -/
def c8Compile : String → Option (String → Bool) := fun _ => none

def c8Page : PageNode := ⟨"Test", "Test.md", [("text", ["hello"])], 0⟩

def c8Graph : WikiGraph := ⟨[c8Page], [], [("Test", 0)]⟩

theorem claim_C8_invalid_regex_witness :
    c8Compile "[invalid" = none ∧
    (matchesPage c8Compile c8Graph c8Page
        (Filter.Matches "text" "[invalid") = false ∧
     ∀ filters : List Filter,
       Filter.Matches "text" "[invalid" ∈ filters →
       WikiGraph.query c8Compile c8Graph filters = []) :=
  ⟨rfl, claim_C8_invalid_regex c8Compile "text" "[invalid" rfl c8Graph
    c8Page⟩

/-- C10: building from a root that does not exist or is not a directory
succeeds (`scan_directory` returns at once) and leaves the graph cleared
and empty; no enumeration error reaches the caller. -/
theorem claim_C10_build_missing_root (g : WikiGraph) :
    (build_from_directory g DirTree.notDir).2 = Except.ok () ∧
    (build_from_directory g DirTree.notDir).1 = WikiGraph.new ∧
    (build_from_directory g DirTree.notDir).1.page_count = 0 ∧
    (build_from_directory g DirTree.notDir).1.link_count = 0 :=
  ⟨rfl, rfl, rfl, rfl⟩

/-- C4 counterexample: with the debouncer created but the OS watch
registration failing, `FileWatcher::start` still returns without an
error, while the background thread never reaches its processing loop —
refuting the claim that a watch-registration failure is returned to the
caller as an `Err`. -/
theorem claim_C4_counterexample :
    (fileWatcherStart true false).returnsErr = false ∧
    (fileWatcherStart true false).threadReachesLoop = false :=
  ⟨rfl, rfl⟩

/-- C4 amended: `FileWatcher::start` returns `Ok` on every path; failure
of debouncer creation or watch registration is only logged inside the
spawned thread, which then exits, leaving a handle to a dead watcher. -/
theorem claim_C4_start_never_errs (d w : Bool) :
    (fileWatcherStart d w).returnsErr = false ∧
    (fileWatcherStart d w).threadReachesLoop = (d && w) :=
  ⟨rfl, rfl⟩

/-! ### The link-diff events of `update_page` (C1) -/

theorem contains_iff_mem {l : List String} {a : String} :
    l.contains a = true ↔ a ∈ l := List.elem_iff

theorem mem_setInsert {s : List String} {a x : String} :
    x ∈ WikiGraph.setInsert s a ↔ (x ∈ s ∨ x = a) := by
  unfold WikiGraph.setInsert
  by_cases hc : s.contains a = true
  · rw [if_pos hc]
    have ha : a ∈ s := contains_iff_mem.mp hc
    constructor
    · exact Or.inl
    · rintro (h | h)
      · exact h
      · rw [h]
        exact ha
  · rw [if_neg hc]
    simp [List.mem_append]

theorem setInsert_nodup {s : List String} (h : s.Nodup) (a : String) :
    (WikiGraph.setInsert s a).Nodup := by
  unfold WikiGraph.setInsert
  by_cases hc : s.contains a = true
  · rw [if_pos hc]
    exact h
  · rw [if_neg hc]
    have ha : a ∉ s := fun hm => hc (contains_iff_mem.mpr hm)
    rw [List.nodup_append]
    refine ⟨h, List.nodup_singleton a, ?_⟩
    intro x hx hx2
    simp only [List.mem_singleton] at hx2
    subst hx2
    exact ha hx

theorem mem_foldl_setInsert :
    ∀ (l init : List String) (x : String),
      x ∈ l.foldl WikiGraph.setInsert init ↔ (x ∈ init ∨ x ∈ l)
  | [], init, x => by simp
  | a :: rest, init, x => by
      rw [List.foldl_cons, mem_foldl_setInsert rest _ x, mem_setInsert]
      simp only [List.mem_cons]
      tauto

theorem nodup_foldl_setInsert :
    ∀ (l init : List String), init.Nodup →
      (l.foldl WikiGraph.setInsert init).Nodup
  | [], _, h => h
  | a :: rest, init, h => by
      rw [List.foldl_cons]
      exact nodup_foldl_setInsert rest _ (setInsert_nodup h a)

/-- The `new_outlinks` set built by `update_page`'s loop is the fold of
set-insertion over the targets of the supplied links. -/
theorem updateLinkStep_snd (name : String) :
    ∀ (links : List ParsedLink) (st : WikiGraph × List String),
      (links.foldl (WikiGraph.updateLinkStep name) st).2 =
        (links.map (fun l => l.target)).foldl WikiGraph.setInsert st.2
  | [], _ => rfl
  | l :: rest, st => by
      rw [List.foldl_cons, List.map_cons, List.foldl_cons]
      exact updateLinkStep_snd name rest _

/-- The event list returned by `update_page`, in closed form: removals
over old∖new then creations over new∖old, both over the deduplicated
target sets. -/
theorem update_page_events_eq (g : WikiGraph) (name file_path : String)
    (metadata : List (String × List String)) (links : List ParsedLink)
    (last_modified : Nat) :
    (g.update_page name file_path metadata links last_modified).2 =
      (((g.get_outlinks name).foldl WikiGraph.setInsert []).filter
        (fun t => !((links.map (fun l => l.target)).foldl
            WikiGraph.setInsert []).contains t)).map
        (fun t => GraphEvent.LinkRemoved name t) ++
      ((((links.map (fun l => l.target)).foldl
            WikiGraph.setInsert []).filter
        (fun t => !((g.get_outlinks name).foldl
            WikiGraph.setInsert []).contains t)).map
        (fun t => GraphEvent.LinkCreated name t)) := by
  unfold WikiGraph.update_page
  simp only
  rw [updateLinkStep_snd]

theorem linkRemoved_inj (name : String) :
    Function.Injective (fun t => GraphEvent.LinkRemoved name t) := by
  intro a b h
  simpa using h

theorem linkCreated_inj (name : String) :
    Function.Injective (fun t => GraphEvent.LinkCreated name t) := by
  intro a b h
  simpa using h

theorem count_filter_map_nodup {α β : Type} [DecidableEq α]
    [DecidableEq β] (f : α → β) (hf : Function.Injective f) (l : List α)
    (hl : l.Nodup) (p : α → Bool) (t : α) :
    ((l.filter p).map f).count (f t) =
      if t ∈ l ∧ p t = true then 1 else 0 := by
  rw [List.count_map_of_injective _ f hf]
  by_cases hc : t ∈ l ∧ p t = true
  · rw [if_pos hc]
    exact List.count_eq_one_of_mem (hl.filter p)
      (List.mem_filter.mpr ⟨hc.1, hc.2⟩)
  · rw [if_neg hc]
    rw [List.count_eq_zero]
    intro hm
    have := List.mem_filter.mp hm
    exact hc ⟨this.1, this.2⟩

theorem count_map_ne_kind {α β : Type} [DecidableEq β] (f : α → β)
    (l : List α) (x : β) (hx : ∀ a, f a ≠ x) : (l.map f).count x = 0 := by
  rw [List.count_eq_zero]
  intro hm
  obtain ⟨a, _, ha⟩ := List.mem_map.mp hm
  exact hx a ha

/-- C1: writing `O` for the set of outgoing link targets of `name`
before the call and `N` for the set of targets in the supplied link
list, the event list returned by `update_page` contains exactly one
`LinkRemoved{name, t}` for each `t ∈ O∖N`, exactly one
`LinkCreated{name, t}` for each `t ∈ N∖O`, no event for any
`t ∈ O∩N` (no link event names such a `t` as its target), and nothing
else: every returned event is one of those two shapes over the
symmetric difference. -/
theorem claim_C1_update_page_link_diff (g : WikiGraph)
    (name file_path : String) (metadata : List (String × List String))
    (links : List ParsedLink) (last_modified : Nat) :
    (∀ t, t ∈ g.get_outlinks name → t ∉ links.map (fun l => l.target) →
      ((g.update_page name file_path metadata links last_modified).2).count
        (GraphEvent.LinkRemoved name t) = 1) ∧
    (∀ t, t ∈ links.map (fun l => l.target) → t ∉ g.get_outlinks name →
      ((g.update_page name file_path metadata links last_modified).2).count
        (GraphEvent.LinkCreated name t) = 1) ∧
    (∀ t, t ∈ g.get_outlinks name → t ∈ links.map (fun l => l.target) →
      ((g.update_page name file_path metadata links last_modified).2).count
        (GraphEvent.LinkRemoved name t) = 0 ∧
      ((g.update_page name file_path metadata links last_modified).2).count
        (GraphEvent.LinkCreated name t) = 0) ∧
    (∀ ev ∈ (g.update_page name file_path metadata links last_modified).2,
      (∃ t, t ∈ g.get_outlinks name ∧ t ∉ links.map (fun l => l.target) ∧
        ev = GraphEvent.LinkRemoved name t) ∨
      (∃ t, t ∈ links.map (fun l => l.target) ∧ t ∉ g.get_outlinks name ∧
        ev = GraphEvent.LinkCreated name t)) := by
  have hO : ∀ t, t ∈ (g.get_outlinks name).foldl WikiGraph.setInsert []
      ↔ t ∈ g.get_outlinks name := by
    intro t
    rw [mem_foldl_setInsert]
    simp
  have hN : ∀ t, t ∈ (links.map (fun l => l.target)).foldl
      WikiGraph.setInsert [] ↔ t ∈ links.map (fun l => l.target) := by
    intro t
    rw [mem_foldl_setInsert]
    simp
  have hOnd : ((g.get_outlinks name).foldl WikiGraph.setInsert []).Nodup :=
    nodup_foldl_setInsert _ _ List.nodup_nil
  have hNnd : ((links.map (fun l => l.target)).foldl
      WikiGraph.setInsert []).Nodup :=
    nodup_foldl_setInsert _ _ List.nodup_nil
  have hpR : ∀ t, (!((links.map (fun l => l.target)).foldl
      WikiGraph.setInsert []).contains t) = true
      ↔ t ∉ links.map (fun l => l.target) := by
    intro t
    rw [Bool.not_eq_true']
    rw [← Bool.not_eq_true]
    rw [contains_iff_mem, hN]
  have hpC : ∀ t, (!((g.get_outlinks name).foldl
      WikiGraph.setInsert []).contains t) = true
      ↔ t ∉ g.get_outlinks name := by
    intro t
    rw [Bool.not_eq_true']
    rw [← Bool.not_eq_true]
    rw [contains_iff_mem, hO]
  refine ⟨?_, ?_, ?_, ?_⟩
  · intro t htO htN
    rw [update_page_events_eq, List.count_append]
    rw [count_filter_map_nodup _ (linkRemoved_inj name) _ hOnd]
    rw [if_pos ⟨(hO t).mpr htO, (hpR t).mpr htN⟩]
    rw [count_map_ne_kind _ _ _ (fun a => by simp)]
  · intro t htN htO
    rw [update_page_events_eq, List.count_append]
    rw [count_map_ne_kind _ _ _ (fun a => by simp)]
    rw [count_filter_map_nodup _ (linkCreated_inj name) _ hNnd]
    rw [if_pos ⟨(hN t).mpr htN, (hpC t).mpr htO⟩]
  · intro t htO htN
    constructor
    · rw [update_page_events_eq, List.count_append]
      rw [count_filter_map_nodup _ (linkRemoved_inj name) _ hOnd]
      rw [if_neg (fun hc => ((hpR t).mp hc.2) htN)]
      rw [count_map_ne_kind _ _ _ (fun a => by simp)]
    · rw [update_page_events_eq, List.count_append]
      rw [count_map_ne_kind _ _ _ (fun a => by simp)]
      rw [count_filter_map_nodup _ (linkCreated_inj name) _ hNnd]
      rw [if_neg (fun hc => ((hpC t).mp hc.2) htO)]
  · intro ev hev
    rw [update_page_events_eq] at hev
    rcases List.mem_append.mp hev with hm | hm
    · obtain ⟨t0, ht0, hevt⟩ := List.mem_map.mp hm
      have hf := List.mem_filter.mp ht0
      exact Or.inl ⟨t0, (hO t0).mp hf.1, (hpR t0).mp hf.2, hevt.symm⟩
    · obtain ⟨t0, ht0, hevt⟩ := List.mem_map.mp hm
      have hf := List.mem_filter.mp ht0
      exact Or.inr ⟨t0, (hN t0).mp hf.1, (hpC t0).mp hf.2, hevt.symm⟩

/-- C2: removing an existing page makes it nonexistent, drops
`link_count` by exactly the number of edges incident to it (incoming
plus outgoing), and leaves every other page retrievable by name with an
unchanged record (path, metadata and timestamp included). -/
theorem claim_C2_remove_page (g : WikiGraph) (X : String) (h : WF g)
    (hex : g.page_exists X = true) :
    (g.remove_page X).1.page_exists X = false ∧
    (g.remove_page X).1.link_count + incidentEdgeCount g X =
      g.link_count ∧
    ∀ n, n ≠ X → (g.remove_page X).1.get_page n = g.get_page n := by
  obtain ⟨idx, hidx⟩ := Option.isSome_iff_exists.mp hex
  have hidx' : g.getIdx X = some idx := hidx
  exact ⟨remove_page_not_exists h hidx',
    remove_page_link_count h hidx',
    fun n hn => remove_page_get_page h hidx' n hn⟩

/-- Concrete three-page graph with three edges, used to witness C2 at a
removal that relocates another node's slot. -/
def c2Graph : WikiGraph :=
  ⟨[⟨"A", "a.md", [], 0⟩, ⟨"B", "b.md", [], 1⟩, ⟨"C", "c.md", [], 2⟩],
   [⟨0, 1, ⟨none⟩⟩, ⟨2, 0, ⟨some "x"⟩⟩, ⟨1, 2, ⟨none⟩⟩],
   [("A", 0), ("B", 1), ("C", 2)]⟩

theorem claim_C2_remove_page_witness :
    WF c2Graph ∧ c2Graph.page_exists "A" = true ∧
    ((c2Graph.remove_page "A").1.page_exists "A" = false ∧
     (c2Graph.remove_page "A").1.link_count +
       incidentEdgeCount c2Graph "A" = c2Graph.link_count ∧
     ∀ n, n ≠ "A" →
       (c2Graph.remove_page "A").1.get_page n = c2Graph.get_page n) :=
  ⟨by decide, by decide,
    claim_C2_remove_page c2Graph "A" (by decide) (by decide)⟩

/-- C3: every Store operation preserves the graph invariant — edge
endpoints are live nodes, at most one edge per ordered pair, and the
name→index map is exactly consistent with the live node set, including
immediately after a removal that relocates another node's slot. -/
theorem claim_C3_invariant_preservation (g : WikiGraph) (h : WF g) :
    (∀ p : PageNode, WF (g.add_page p).1) ∧
    (∀ (fromName toName : String) (lk : WikiLink),
      WF (g.add_link fromName toName lk).1) ∧
    (∀ n : String, WF (g.remove_page n).1) ∧
    (∀ n : String, WF (g.remove_outgoing_edges n)) ∧
    (∀ (n fp : String) (md : List (String × List String))
      (links : List ParsedLink) (lm : Nat),
      WF (g.update_page n fp md links lm).1) ∧
    WF g.clear ∧
    (∀ root : DirTree, WF (build_from_directory g root).1) :=
  ⟨fun p => add_page_WF h p,
   fun fromName toName lk => add_link_WF h fromName toName lk,
   fun n => remove_page_WF h n,
   fun n => remove_outgoing_edges_WF h n,
   fun n fp md links lm => update_page_WF h n fp md links lm,
   clear_WF g,
   fun root => build_from_directory_WF g root⟩

/-- Concrete graph used to witness C3. -/
def c3Graph : WikiGraph :=
  ⟨[⟨"Home", "Home.md", [("tag", ["t"])], 0⟩, ⟨"About", "About.md", [], 1⟩],
   [⟨0, 1, ⟨none⟩⟩],
   [("Home", 0), ("About", 1)]⟩

theorem claim_C3_invariant_preservation_witness :
    WF c3Graph ∧
    ((∀ p : PageNode, WF (c3Graph.add_page p).1) ∧
     (∀ (fromName toName : String) (lk : WikiLink),
       WF (c3Graph.add_link fromName toName lk).1) ∧
     (∀ n : String, WF (c3Graph.remove_page n).1) ∧
     (∀ n : String, WF (c3Graph.remove_outgoing_edges n)) ∧
     (∀ (n fp : String) (md : List (String × List String))
       (links : List ParsedLink) (lm : Nat),
       WF (c3Graph.update_page n fp md links lm).1) ∧
     WF c3Graph.clear ∧
     (∀ root : DirTree, WF (build_from_directory c3Graph root).1)) :=
  ⟨by decide, claim_C3_invariant_preservation c3Graph (by decide)⟩

/-! ### Watcher deletion handling (C5) -/

theorem remove_page_nameAt {g : WikiGraph} {name : String} {idx : Nat}
    (h : WF g) (hidx : g.getIdx name = some idx) {d : Nat}
    (hd : d < g.nodes.length) (hdne : d ≠ idx) :
    (g.remove_page name).1.nameAt
        (WikiGraph.renumber (g.nodes.length - 1) idx d) = g.nameAt d := by
  have hq := remove_page_get?_nodes h hidx hd hdne
  rw [WikiGraph.nameAt, WikiGraph.nameAt, getD_eq_get?, getD_eq_get?, hq]

/-- Membership in a surviving page's outgoing set across `remove_page`:
exactly the old targets other than the removed page. -/
theorem remove_page_outlinks_mem {g : WikiGraph} {name : String}
    {idx : Nat} (h : WF g) (hidx : g.getIdx name = some idx) {n : String}
    {j : Nat} (hn : g.getIdx n = some j) (hne : n ≠ name) (t : String) :
    t ∈ (g.remove_page name).1.get_outlinks n ↔
      (t ∈ g.get_outlinks n ∧ t ≠ name) := by
  obtain ⟨hlt, hnmidx⟩ := h.getIdx_spec hidx
  obtain ⟨hjlt, hjname⟩ := h.getIdx_spec hn
  have hjne : j ≠ idx := h.ne_idx_of_ne_name hidx hn hne
  have hgetIdx' : (g.remove_page name).1.getIdx n
      = some (WikiGraph.renumber (g.nodes.length - 1) idx j) := by
    rw [remove_page_getIdx h hidx n hne, hn]
    rfl
  have hedges' : (g.remove_page name).1.edges =
      (g.edges.filter (fun e => e.src != idx && e.dst != idx)).map
        (fun e => Edge.mk
          (WikiGraph.renumber (g.nodes.length - 1) idx e.src)
          (WikiGraph.renumber (g.nodes.length - 1) idx e.dst) e.link) := by
    rw [remove_page_some hlt hidx]
  simp only [WikiGraph.get_outlinks, hgetIdx', hn, hedges']
  constructor
  · intro hm
    obtain ⟨e', he', het⟩ := List.mem_map.mp hm
    have he'f := List.mem_filter.mp he'
    obtain ⟨e, he, hee⟩ := List.mem_map.mp he'f.1
    have hkept := List.of_mem_filter he
    have hemem := List.mem_of_mem_filter he
    simp only [Bool.and_eq_true, bne_iff_ne, ne_eq] at hkept
    have hbounds := h.2.2.1 e hemem
    have hsrc : e'.src = WikiGraph.renumber (g.nodes.length - 1) idx e.src := by
      rw [← hee]
    have hdst : e'.dst = WikiGraph.renumber (g.nodes.length - 1) idx e.dst := by
      rw [← hee]
    have hsrcj : e.src = j := by
      have := beq_iff_eq.mp he'f.2
      rw [hsrc] at this
      exact renumber_inj hkept.1 hjne this
    have hnameAt : (g.remove_page name).1.nameAt e'.dst = g.nameAt e.dst := by
      rw [hdst]
      exact remove_page_nameAt h hidx hbounds.2 hkept.2
    have htval : g.nameAt e.dst = t := by
      rw [← hnameAt]
      exact het
    constructor
    · apply List.mem_map.mpr
      refine ⟨e, List.mem_filter.mpr ⟨hemem, ?_⟩, htval⟩
      simp [hsrcj]
    · intro hceq
      rw [hceq] at htval
      have : e.dst = idx := h.nameAt_inj hbounds.2 hlt
        (htval.trans hnmidx.symm)
      exact hkept.2 this
  · rintro ⟨hm, htne⟩
    obtain ⟨e, he, het⟩ := List.mem_map.mp hm
    have hef := List.mem_filter.mp he
    have hbounds := h.2.2.1 e hef.1
    have hsrcj : e.src = j := beq_iff_eq.mp hef.2
    have hdstne : e.dst ≠ idx := by
      intro hceq
      apply htne
      rw [← het, hceq]
      exact hnmidx
    have hsrcne : e.src ≠ idx := by
      rw [hsrcj]
      exact hjne
    apply List.mem_map.mpr
    refine ⟨Edge.mk (WikiGraph.renumber (g.nodes.length - 1) idx e.src)
      (WikiGraph.renumber (g.nodes.length - 1) idx e.dst) e.link,
      List.mem_filter.mpr ⟨?_, ?_⟩, ?_⟩
    · apply List.mem_map.mpr
      refine ⟨e, ?_, rfl⟩
      apply List.mem_filter.mpr
      refine ⟨hef.1, ?_⟩
      simp [hsrcne, hdstne]
    · simp only [beq_iff_eq]
      rw [hsrcj]
    · have := remove_page_nameAt h hidx hbounds.2 hdstne
      rw [this]
      exact het

/-- The C5 scenario graph: P with outgoing links to A and B, and one
incoming link from Q. -/
def c5Graph : WikiGraph :=
  ⟨[⟨"P", "P.md", [], 0⟩, ⟨"A", "A.md", [], 0⟩, ⟨"B", "B.md", [], 0⟩,
    ⟨"Q", "Q.md", [], 0⟩],
   [⟨0, 1, ⟨none⟩⟩, ⟨0, 2, ⟨none⟩⟩, ⟨3, 0, ⟨none⟩⟩],
   [("P", 0), ("A", 1), ("B", 2), ("Q", 3)]⟩

/-- C5 counterexample: in the exact claimed scenario (P has two outgoing
links and one incoming link from Q), Q's outgoing-link list before the
deletion is `["P"]` but after `handle_file_deleted` it is empty — the
Q→P edge is removed from the graph by `remove_page`, so Q's
outgoing-link list is not unchanged and does not still contain P;
consistently, `link_count` drops by all three incident edges. -/
theorem claim_C5_counterexample :
    c5Graph.get_outlinks "Q" = ["P"] ∧
    (handleFileDeleted c5Graph "P").1.get_outlinks "Q" = [] ∧
    (handleFileDeleted c5Graph "P").2 =
      [GraphEvent.PageDeleted "P", GraphEvent.LinkRemoved "P" "A",
       GraphEvent.LinkRemoved "P" "B"] ∧
    c5Graph.link_count = 3 ∧
    (handleFileDeleted c5Graph "P").1.link_count = 0 := by
  refine ⟨by decide, by decide, by decide, by decide, by decide⟩

/-- C5 amended: when the watcher processes deletion of an existing page
P, the emitted events are exactly `PageDeleted{P}` followed by one
`LinkRemoved{P, t}` per captured outgoing link, and no event for the
backlink from Q; afterwards Q still exists with an unchanged record, but
its edge to P is gone from the graph (unreported): Q's outgoing set is
its old set minus P, and `link_count` drops by exactly the edges
incident to P. -/
theorem claim_C5_delete_page (g : WikiGraph) (P Q : String) (h : WF g)
    (hP : g.page_exists P = true) (hQ : g.page_exists Q = true)
    (hne : Q ≠ P) :
    (handleFileDeleted g P).2 =
      GraphEvent.PageDeleted P ::
        (g.get_outlinks P).map (fun t => GraphEvent.LinkRemoved P t) ∧
    (∀ t, GraphEvent.LinkRemoved Q t ∉ (handleFileDeleted g P).2) ∧
    (handleFileDeleted g P).1.page_exists Q = true ∧
    (handleFileDeleted g P).1.get_page Q = g.get_page Q ∧
    (handleFileDeleted g P).1.link_count + incidentEdgeCount g P =
      g.link_count ∧
    (∀ t, t ∈ (handleFileDeleted g P).1.get_outlinks Q ↔
      (t ∈ g.get_outlinks Q ∧ t ≠ P)) := by
  obtain ⟨idx, hidx⟩ := Option.isSome_iff_exists.mp hP
  obtain ⟨jq, hjq⟩ := Option.isSome_iff_exists.mp hQ
  have hidx' : g.getIdx P = some idx := hidx
  have hjq' : g.getIdx Q = some jq := hjq
  have hred : handleFileDeleted g P =
      ((g.remove_page P).1,
        GraphEvent.PageDeleted P ::
          (g.get_outlinks P).map
            (fun t => GraphEvent.LinkRemoved P t)) := by
    unfold handleFileDeleted
    rw [hP]
    rfl
  rw [hred]
  refine ⟨rfl, ?_, ?_, ?_, ?_, ?_⟩
  · intro t hmem
    simp only [List.mem_cons] at hmem
    rcases hmem with hmem | hmem
    · cases hmem
    · obtain ⟨t0, _, ht0⟩ := List.mem_map.mp hmem
      have : Q = P := by
        have := (GraphEvent.LinkRemoved.injEq _ _ _ _).mp ht0.symm
        exact this.1
      exact hne this
  · rw [WikiGraph.page_exists,
      show assocFind (g.remove_page P).1.node_index Q
        = (g.remove_page P).1.getIdx Q from rfl,
      remove_page_getIdx h hidx' Q hne, hjq']
    rfl
  · exact remove_page_get_page h hidx' Q hne
  · exact remove_page_link_count h hidx'
  · exact fun t => remove_page_outlinks_mem h hidx' hjq' hne t

theorem claim_C5_delete_page_witness :
    WF c5Graph ∧ c5Graph.page_exists "P" = true ∧
    c5Graph.page_exists "Q" = true ∧ "Q" ≠ "P" ∧
    ((handleFileDeleted c5Graph "P").2 =
      GraphEvent.PageDeleted "P" ::
        (c5Graph.get_outlinks "P").map
          (fun t => GraphEvent.LinkRemoved "P" t) ∧
     (∀ t, GraphEvent.LinkRemoved "Q" t ∉ (handleFileDeleted c5Graph "P").2) ∧
     (handleFileDeleted c5Graph "P").1.page_exists "Q" = true ∧
     (handleFileDeleted c5Graph "P").1.get_page "Q" = c5Graph.get_page "Q" ∧
     (handleFileDeleted c5Graph "P").1.link_count +
       incidentEdgeCount c5Graph "P" = c5Graph.link_count ∧
     (∀ t, t ∈ (handleFileDeleted c5Graph "P").1.get_outlinks "Q" ↔
       (t ∈ c5Graph.get_outlinks "Q" ∧ t ≠ "P"))) :=
  ⟨by decide, by decide, by decide, by decide,
    claim_C5_delete_page c5Graph "P" "Q" (by decide) (by decide)
      (by decide) (by decide)⟩

/-! ### Link extraction (C9) -/

theorem head?_dropWhile {p : Char → Bool} :
    ∀ {l : List Char} {a : Char},
      (l.dropWhile p).head? = some a → p a = false := by
  intro l
  induction l with
  | nil => intro a h; simp at h
  | cons x xs ih =>
      intro a h
      by_cases hp : p x = true
      · rw [List.dropWhile_cons, if_pos hp] at h
        exact ih h
      · rw [List.dropWhile_cons, if_neg hp] at h
        simp only [List.head?_cons, Option.some.injEq] at h
        rw [← h]
        exact Bool.not_eq_true _ |>.mp hp

theorem dropWhile_eq_self_of_head {p : Char → Bool} {l : List Char}
    (h : ∀ a, l.head? = some a → p a = false) : l.dropWhile p = l := by
  cases l with
  | nil => rfl
  | cons x xs =>
      rw [List.dropWhile_cons, if_neg ?_]
      rw [h x rfl]
      simp

theorem prefix_head? {x y : List Char} (h : x <+: y) (hne : x ≠ []) :
    y.head? = x.head? := by
  obtain ⟨t, ht⟩ := h
  cases x with
  | nil => exact absurd rfl hne
  | cons a rest => rw [← ht]; rfl

/-- The output of `trimChars` has no leading or trailing whitespace. -/
theorem trimChars_noWs (l : List Char) :
    (∀ a, (trimChars l).head? = some a → a.isWhitespace = false) ∧
    (∀ a, (trimChars l).getLast? = some a → a.isWhitespace = false) := by
  unfold trimChars
  constructor
  · intro a ha
    have hpre : ((l.dropWhile Char.isWhitespace).reverse.dropWhile
        Char.isWhitespace).reverse <+:
        (l.dropWhile Char.isWhitespace).reverse.reverse :=
      List.reverse_prefix.mpr (List.dropWhile_suffix _)
    rw [List.reverse_reverse] at hpre
    have hne : ((l.dropWhile Char.isWhitespace).reverse.dropWhile
        Char.isWhitespace).reverse ≠ [] := by
      intro hc
      rw [hc] at ha
      cases ha
    have hagree := prefix_head? hpre hne
    rw [← hagree] at ha
    exact head?_dropWhile ha
  · intro a ha
    rw [List.getLast?_reverse] at ha
    exact head?_dropWhile ha

/-- A list with no leading or trailing whitespace is unchanged by
`trimChars`. -/
theorem trimChars_eq_self {l : List Char}
    (hh : ∀ a, l.head? = some a → a.isWhitespace = false)
    (hl : ∀ a, l.getLast? = some a → a.isWhitespace = false) :
    trimChars l = l := by
  unfold trimChars
  rw [dropWhile_eq_self_of_head hh]
  rw [dropWhile_eq_self_of_head ?_]
  · rw [List.reverse_reverse]
  · intro a ha
    rw [List.head?_reverse] at ha
    exact hl a ha

theorem trimChars_idem (l : List Char) :
    trimChars (trimChars l) = trimChars l :=
  trimChars_eq_self (trimChars_noWs l).1 (trimChars_noWs l).2

theorem toList_mk (cs : List Char) : (String.mk cs).toList = cs := rfl

/-- The per-link guarantees of `linkOfContent`: target and display text
are trim-stable, and the target is nonempty. -/
theorem linkOfContent_spec (inner : List Char) :
    ∀ l ∈ linkOfContent inner,
      l.target.toList = trimChars l.target.toList ∧
      (∀ d, l.display_text = some d → d.toList = trimChars d.toList) ∧
      l.target ≠ "" := by
  intro l hl
  unfold linkOfContent at hl
  cases hsp : splitPipe inner with
  | some p =>
      rw [hsp] at hl
      simp only at hl
      by_cases he : (trimChars p.1).isEmpty = true
      · rw [if_pos he] at hl
        cases hl
      · rw [if_neg he] at hl
        simp only [List.mem_singleton] at hl
        subst hl
        refine ⟨?_, ?_, ?_⟩
        · rw [toList_mk, trimChars_idem]
        · intro d hd
          simp only [Option.some.injEq] at hd
          rw [← hd, toList_mk, trimChars_idem]
        · intro hc
          have h0 : trimChars p.1 = [] := congrArg String.toList hc
          rw [h0] at he
          exact he rfl
  | none =>
      rw [hsp] at hl
      simp only at hl
      by_cases he : (trimChars inner).isEmpty = true
      · rw [if_pos he] at hl
        cases hl
      · rw [if_neg he] at hl
        simp only [List.mem_singleton] at hl
        subst hl
        refine ⟨?_, ?_, ?_⟩
        · rw [toList_mk, trimChars_idem]
        · intro d hd
          cases hd
        · intro hc
          have h0 : trimChars inner = [] := congrArg String.toList hc
          rw [h0] at he
          exact he rfl

/-! Closed-form equations for the scanning loop. -/

theorem scanLinks_eq_close {rest2 : List Char}
    {p : List Char × List Char} (hf : findClose rest2 = some p) :
    scanLinks ('[' :: '[' :: rest2) =
      linkOfContent p.1 ++ scanLinks p.2 := by
  rw [scanLinks.eq_def]
  simp only [if_pos rfl]
  split
  · split
    · next p2 heq =>
        rw [hf] at heq
        cases heq
        rfl
    · next heq =>
        rw [hf] at heq
        cases heq
  · next hfalse => exact absurd trivial hfalse

theorem scanLinks_eq_noclose {rest2 : List Char}
    (hf : findClose rest2 = none) :
    scanLinks ('[' :: '[' :: rest2) = scanLinks ('[' :: rest2) := by
  rw [scanLinks.eq_def]
  simp only [if_pos rfl]
  split
  · split
    · next p2 heq =>
        rw [hf] at heq
        cases heq
    · rfl
  · next hfalse => exact absurd trivial hfalse

theorem scanLinks_eq_single {other : List Char}
    (h : ∀ rest2, other = '[' :: rest2 → False) :
    scanLinks ('[' :: other) = scanLinks other := by
  rw [scanLinks.eq_def]
  match other, h with
  | [], _ => rfl
  | c :: rest, h =>
      have hc : ¬(c = '[') := fun hc2 => h rest (by rw [hc2])
      simp [hc]

theorem scanLinks_eq_skip {d : Char} {rest2 : List Char}
    (h : ¬(d = '[')) : scanLinks (d :: rest2) = scanLinks rest2 := by
  rw [scanLinks.eq_def]
  simp [h]

/-- Every link produced by the scanning loop satisfies the per-link
guarantees. -/
theorem scanLinks_spec (cs : List Char) :
    ∀ l ∈ scanLinks cs,
      l.target.toList = trimChars l.target.toList ∧
      (∀ d, l.display_text = some d → d.toList = trimChars d.toList) ∧
      l.target ≠ "" := by
  induction cs using scanLinks.induct with
  | case1 =>
      intro l hl
      simp [scanLinks.eq_def] at hl
  | case2 rest2 p hf ih =>
      intro l hl
      rw [scanLinks_eq_close hf] at hl
      rcases List.mem_append.mp hl with hm | hm
      · exact linkOfContent_spec p.1 l hm
      · exact ih l hm
  | case3 rest2 hf ih =>
      intro l hl
      rw [scanLinks_eq_noclose hf] at hl
      exact ih l hl
  | case4 other h ih =>
      intro l hl
      rw [scanLinks_eq_single h] at hl
      exact ih l hl
  | case5 d rest2 hd ih =>
      intro l hl
      rw [scanLinks_eq_skip hd] at hl
      exact ih l hl

/-! The de-duplication fold (`retain` with a seen-set). -/

theorem dedupStep_eq (acc : List ParsedLink) (seen : List String)
    (r : ParsedLink) :
    dedupStep (acc, seen) r =
      if seen.contains r.target then (acc, seen)
      else (acc ++ [r], seen ++ [r.target]) := rfl

theorem dedup_snd :
    ∀ (rs : List ParsedLink) (acc : List ParsedLink) (seen : List String),
      seen = acc.map (fun l => l.target) →
      (rs.foldl dedupStep (acc, seen)).2 =
        (rs.foldl dedupStep (acc, seen)).1.map (fun l => l.target)
  | [], _, _, h => h
  | r :: rest, acc, seen, h => by
      rw [List.foldl_cons, dedupStep_eq]
      by_cases hc : seen.contains r.target = true
      · rw [if_pos hc]
        exact dedup_snd rest acc seen h
      · rw [if_neg hc]
        refine dedup_snd rest (acc ++ [r]) (seen ++ [r.target]) ?_
        rw [h, List.map_append]
        rfl

theorem dedup_split :
    ∀ (rs : List ParsedLink) (acc : List ParsedLink) (seen : List String),
      ∃ ext, (rs.foldl dedupStep (acc, seen)).1 = acc ++ ext ∧
        ext.Sublist rs
  | [], _, _ => ⟨[], by simp, List.nil_sublist _⟩
  | r :: rest, acc, seen => by
      rw [List.foldl_cons, dedupStep_eq]
      by_cases hc : seen.contains r.target = true
      · rw [if_pos hc]
        obtain ⟨ext, h1, h2⟩ := dedup_split rest acc seen
        exact ⟨ext, h1, h2.cons r⟩
      · rw [if_neg hc]
        obtain ⟨ext, h1, h2⟩ := dedup_split rest (acc ++ [r])
          (seen ++ [r.target])
        refine ⟨r :: ext, ?_, List.Sublist.cons₂ r h2⟩
        rw [h1, List.append_assoc]
        rfl

theorem dedup_nodup :
    ∀ (rs : List ParsedLink) (acc : List ParsedLink) (seen : List String),
      seen = acc.map (fun l => l.target) → seen.Nodup →
      ((rs.foldl dedupStep (acc, seen)).1.map
        (fun l => l.target)).Nodup
  | [], _, _, h, hnd => by
      simp only [List.foldl_nil]
      rw [← h]
      exact hnd
  | r :: rest, acc, seen, h, hnd => by
      rw [List.foldl_cons, dedupStep_eq]
      by_cases hc : seen.contains r.target = true
      · rw [if_pos hc]
        exact dedup_nodup rest acc seen h hnd
      · rw [if_neg hc]
        refine dedup_nodup rest (acc ++ [r]) (seen ++ [r.target]) ?_ ?_
        · rw [h, List.map_append]
          rfl
        · rw [List.nodup_append]
          refine ⟨hnd, List.nodup_singleton _, ?_⟩
          intro x hx hx2
          simp only [List.mem_singleton] at hx2
          subst hx2
          exact hc (contains_iff_mem.mpr hx)

theorem dedup_first_occurrence :
    ∀ (rs : List ParsedLink) (acc : List ParsedLink) (seen : List String),
      seen = acc.map (fun l => l.target) →
      ∀ l ∈ (rs.foldl dedupStep (acc, seen)).1,
        l ∈ acc ∨ (l.target ∉ seen ∧
          rs.find? (fun r => r.target == l.target) = some l)
  | [], _, _, _ => by
      intro l hl
      exact Or.inl hl
  | r :: rest, acc, seen, h => by
      intro l hl
      rw [List.foldl_cons, dedupStep_eq] at hl
      by_cases hc : seen.contains r.target = true
      · rw [if_pos hc] at hl
        rcases dedup_first_occurrence rest acc seen h l hl with
          hm | ⟨hns, hfind⟩
        · exact Or.inl hm
        · refine Or.inr ⟨hns, ?_⟩
          rw [List.find?_cons_of_neg, hfind]
          intro hpred
          have : r.target = l.target := beq_iff_eq.mp hpred
          rw [← this] at hns
          exact hns (contains_iff_mem.mp hc)
      · rw [if_neg hc] at hl
        rcases dedup_first_occurrence rest (acc ++ [r])
            (seen ++ [r.target]) (by rw [h, List.map_append]; rfl) l hl with
          hm | ⟨hns, hfind⟩
        · rcases List.mem_append.mp hm with hm2 | hm2
          · exact Or.inl hm2
          · simp only [List.mem_singleton] at hm2
            subst hm2
            refine Or.inr ⟨fun hmem => hc (contains_iff_mem.mpr hmem), ?_⟩
            rw [List.find?_cons_of_pos]
            simp
        · have hns2 : l.target ∉ seen ∧ l.target ≠ r.target := by
            constructor
            · intro hmem
              exact hns (List.mem_append.mpr (Or.inl hmem))
            · intro hceq
              exact hns (List.mem_append.mpr (Or.inr (by rw [hceq]; simp)))
          refine Or.inr ⟨hns2.1, ?_⟩
          rw [List.find?_cons_of_neg, hfind]
          intro hpred
          exact hns2.2 (beq_iff_eq.mp hpred).symm

theorem dedup_coverage :
    ∀ (rs : List ParsedLink) (acc : List ParsedLink) (seen : List String),
      seen = acc.map (fun l => l.target) →
      ∀ r ∈ rs, ∃ l ∈ (rs.foldl dedupStep (acc, seen)).1,
        l.target = r.target
  | [], _, _, _ => by
      intro r hr
      cases hr
  | r0 :: rest, acc, seen, h => by
      intro r hr
      rw [List.foldl_cons, dedupStep_eq]
      by_cases hc : seen.contains r0.target = true
      · rw [if_pos hc]
        rcases List.mem_cons.mp hr with hre | hre
        · subst hre
          have hmem : r.target ∈ seen := contains_iff_mem.mp hc
          rw [h] at hmem
          obtain ⟨a, ha, hat⟩ := List.mem_map.mp hmem
          obtain ⟨ext, h1, _⟩ := dedup_split rest acc seen
          exact ⟨a, by rw [h1]; exact List.mem_append.mpr (Or.inl ha), hat⟩
        · exact dedup_coverage rest acc seen h r hre
      · rw [if_neg hc]
        rcases List.mem_cons.mp hr with hre | hre
        · subst hre
          obtain ⟨ext, h1, _⟩ := dedup_split rest (acc ++ [r])
            (seen ++ [r.target])
          refine ⟨r, ?_, rfl⟩
          rw [h1]
          exact List.mem_append.mpr (Or.inl (List.mem_append.mpr
            (Or.inr (by simp))))
        · exact dedup_coverage rest (acc ++ [r0]) (seen ++ [r0.target])
            (by rw [h, List.map_append]; rfl) r hre

/-- C9: every extracted link has a whitespace-trim-stable target and
display text and a nonempty target; the result is de-duplicated by
target (targets pairwise distinct), is a subsequence of the raw scan
(first-occurrence order preserved), each kept link is the first raw
occurrence of its target (so the first occurrence's display text is
kept), and every scanned target is represented. -/
theorem claim_C9_extract_wiki_links (content : String) :
    (∀ l ∈ extract_wiki_links content,
      l.target.toList = trimChars l.target.toList ∧
      (∀ d, l.display_text = some d → d.toList = trimChars d.toList) ∧
      l.target ≠ "") ∧
    ((extract_wiki_links content).map (fun l => l.target)).Nodup ∧
    (extract_wiki_links content).Sublist (scanLinks content.toList) ∧
    (∀ l ∈ extract_wiki_links content,
      (scanLinks content.toList).find?
        (fun r => r.target == l.target) = some l) ∧
    (∀ r ∈ scanLinks content.toList,
      ∃ l ∈ extract_wiki_links content, l.target = r.target) := by
  have hsub : (extract_wiki_links content).Sublist
      (scanLinks content.toList) := by
    obtain ⟨ext, h1, h2⟩ := dedup_split (scanLinks content.toList) [] []
    unfold extract_wiki_links
    rw [h1, List.nil_append]
    exact h2
  refine ⟨?_, ?_, hsub, ?_, ?_⟩
  · intro l hl
    exact scanLinks_spec content.toList l (hsub.subset hl)
  · exact dedup_nodup (scanLinks content.toList) [] [] rfl List.nodup_nil
  · intro l hl
    rcases dedup_first_occurrence (scanLinks content.toList) [] [] rfl
        l hl with hm | ⟨_, hfind⟩
    · cases hm
    · exact hfind
  · exact dedup_coverage (scanLinks content.toList) [] [] rfl

end GraphWiki
